import Mathlib

/-!
Verification of the ambient-noise phase-velocity picking tools (`noise.py`).

The development shallowly embeds the functions `running_mean`,
`get_zero_crossings`, `extract_phase_velocity` and `get_smooth_pv` of the
source file over exact rationals.  Modelling conventions, used throughout:

* numpy float arrays become `List ℚ`; float literals of the source
  (`0.05`, `0.1`, `2.5`, …) become the exact rationals they denote in the
  source text.  The float constant `np.pi` is transcendental, so every
  embedded function that uses it takes an explicit parameter `pi : ℚ`
  standing for that constant; all statements are proved for every value of
  the parameter, hence in particular for the float value used by numpy.
* `ℚ` division is total with `x / 0 = 0`, while numpy float division by
  zero yields `inf`/`nan`.  The guard comparisons of the source that could
  divide by zero are embedded with total division; concrete statements
  (counterexamples, witnesses) always use inputs whose denominators are
  nonzero, so they agree with the float execution.
* operations that raise Python exceptions (`IndexError`, numpy broadcast
  errors, `NameError`) are embedded with `Option`/`Except`: `none` /
  `.error` means the call raises.
* `np.argsort`/`argmin` on distance arrays are embedded by a stable
  insertion sort / first-minimiser; numpy's unstable quicksort can permute
  tied entries, and every statement proved here is insensitive to the
  order of ties.
-/

section
set_option allowUnsafeReducibility true
attribute [semireducible] Rat.mul Rat.add Rat.sub Rat.inv
end

namespace NoiseTools

/-- Sum of a list of rationals, mirroring `np.sum`/`np.cumsum` differences. -/
def pySum (l : List ℚ) : ℚ := l.foldl (· + ·) 0

/-- `np.mean` of a vector (`0` on the empty vector, never evaluated there on
the no-exception paths of the embedded code). -/
def npMean (l : List ℚ) : ℚ := pySum l / (l.length : ℚ)

/-- `np.var`: population variance, mean of squared deviations from the mean. -/
def npVar (l : List ℚ) : ℚ := npMean (l.map (fun v => (v - npMean l) ^ 2))

/-- Python `int(q)` / `np.int(q)`: truncation toward zero. -/
def pyTrunc (q : ℚ) : ℤ := if 0 ≤ q then ⌊q⌋ else ⌈q⌉

/-- Minimum of a list with default `0` for the empty list (`np.min`). -/
def listMin (l : List ℚ) : ℚ := l.foldl min (l.headD 0)

/-- Maximum of a list with default `0` for the empty list (`np.max`). -/
def listMax (l : List ℚ) : ℚ := l.foldl max (l.headD 0)

/-! ## running_mean (noise.py lines 27-37)

```
def running_mean(x, N):
    if N%2 == 0:
        N+=1
    idx0 = int((N-1)/2)
    runmean = np.zeros(len(x))
    cumsum = np.cumsum(np.insert(x, 0, 0))
    runmean[idx0:-idx0] = (cumsum[N:] - cumsum[:-N]) / N
    for i in range(idx0):
        runmean[i] = np.mean(x[:2*i+1])
        runmean[-i-1] = np.mean(x[-2*i-1:])
    return runmean
```

`cumsum[N+j] - cumsum[j]` is the window sum `x[j] + … + x[j+N-1]`, and the
slice assignment writes window `j` to cell `idx0 + j`.  Two exception paths
exist and are embedded as `none`:

* when `idx0 = 0` (i.e. `N ≤ 1`), the slice `runmean[0:-0]` is
  `runmean[0:0]`, the empty slice: numpy raises a broadcast `ValueError`
  unless the right-hand side has length ≤ 1 (a length-1 vector broadcasts
  into an empty slice), i.e. unless `len(x) ≤ 1`;
* the boundary loop writes `runmean[i]` for `i < idx0` and raises
  `IndexError` as soon as `i` reaches `len(x)`, i.e. whenever
  `len(x) < idx0`.
-/

/-- The boundary-filling loop of `running_mean`: iterations `i, i+1, …` for
`k` more steps, assigning `rm[i] = mean x[:2i+1]` then
`rm[-i-1] = mean x[-2i-1:]` in the order the source executes them. -/
def rmBoundary (x : List ℚ) : List ℚ → ℕ → ℕ → List ℚ
  | rm, _, 0 => rm
  | rm, i, k + 1 =>
      let rm1 := rm.set i (npMean (x.take (2 * i + 1)))
      let rm2 := rm1.set (rm1.length - 1 - i) (npMean (x.drop (x.length - (2 * i + 1))))
      rmBoundary x rm2 (i + 1) k

/-- Shallow embedding of `running_mean` (noise.py 27-37); `none` models the
two numpy exception paths described above. -/
def running_mean (x : List ℚ) (N0 : ℕ) : Option (List ℚ) :=
  let N := if N0 % 2 = 0 then N0 + 1 else N0
  let idx0 := (N - 1) / 2
  let len := x.length
  if idx0 = 0 ∧ 2 ≤ len then none
  else if len < idx0 then none
  else
    let center := (List.range len).map (fun k =>
      if 1 ≤ idx0 ∧ idx0 ≤ k ∧ k + idx0 < len then
        pySum ((x.drop (k - idx0)).take N) / (N : ℚ)
      else 0)
    some (rmBoundary x center 0 idx0)

/-- C8: the source's own intent (a running mean, spec: "applying the
running-mean smoother to a constant-valued sequence returns the same
constant everywhere") fails at window size `N = 1`: the slice
`runmean[idx0:-idx0]` is empty because `idx0 = 0`, so the constant input
`[2]` yields `[0]`, not `[2]`.  (For `len(x) ≥ 2` and `N ≤ 1` the same slip
even raises a broadcast `ValueError`.) -/
theorem running_mean_window_one_zeroes_constant :
    running_mean [(2 : ℚ)] 1 = some [0] ∧ ((0 : ℚ) ≠ 2) := by
  constructor
  · rfl
  · norm_num

/-- C10: an even window size `N` is silently widened to `N + 1`:
`running_mean x N` and `running_mean x (N+1)` are definitionally the same
computation, exceptions included. -/
theorem running_mean_even_window_widened (x : List ℚ) (N : ℕ) (h : N % 2 = 0) :
    running_mean x N = running_mean x (N + 1) := by
  have h2 : ¬ (N + 1) % 2 = 0 := by omega
  simp only [running_mean, h, h2, if_true, if_false, reduceIte]

/-- Witness for C10 at `x = [1,2,3]`, `N = 4`. -/
theorem running_mean_even_window_widened_witness :
    4 % 2 = 0 ∧ running_mean [(1 : ℚ), 2, 3] 4 = running_mean [(1 : ℚ), 2, 3] 5 :=
  ⟨by norm_num, running_mean_even_window_widened [(1 : ℚ), 2, 3] 4 (by norm_num)⟩

/-! ## get_zero_crossings (noise.py 231-352)

The function takes the frequency axis and the (possibly spline-smoothed)
real part of the correlation spectrum, restricts both to
`[freqmin, freqmax]`, locates sign changes of the restricted spectrum by
linear interpolation, and maps each crossing against a table of kernel
zeros.  Modelling notes:

* `ccspec` is the real part of `corr_spectrum`; the optional
  `LSQUnivariateSpline` pre-smoothing (lines 277-283) produces some other
  real vector, and every statement below is quantified over an arbitrary
  `ccspec`, hence covers the smoothed path as an instance;
* the kernel-zero table (`jn_zeros(0, n)`, lines 317-326, or the sampled
  crossings of `J0 - J2` for the horizontally-polarized mode) consists of
  transcendental numbers; it is passed as the parameter `zeros : List ℚ`,
  over which all statements are quantified.  The parity slices
  `bessel_zeros[1::2]` / `bessel_zeros[0::2]` (lines 328-329) are embedded
  exactly.
-/

/-- Elements at even positions of a list (Python slice `l[0::2]`). -/
def everyOther : List ℚ → List ℚ
  | [] => []
  | [a] => [a]
  | a :: _ :: rest => a :: everyOther rest

/-- `neg_bessel_zeros = bessel_zeros[0::2]` (line 329): even-indexed kernel
zeros, matched against positive-to-negative spectral crossings. -/
def neg_bessel_zeros (zeros : List ℚ) : List ℚ := everyOther zeros

/-- `pos_bessel_zeros = bessel_zeros[1::2]` (line 328): odd-indexed kernel
zeros, matched against negative-to-positive spectral crossings. -/
def pos_bessel_zeros (zeros : List ℚ) : List ℚ := everyOther (zeros.drop 1)

/-- Restriction to the requested frequency band (lines 287-290): the mask
`(freq>=freqmin)&(freq<=freqmax)` applied to the frequency axis and to the
spectrum simultaneously (the two arrays have equal length in any valid
call, so masking both equals filtering their zip on the frequency). -/
def restricted (fmin fmax : ℚ) (freq ccspec : List ℚ) : List (ℚ × ℚ) :=
  (freq.zip ccspec).filter (fun p => decide (fmin ≤ p.1 ∧ p.1 ≤ fmax))

/-- The sign-change scan (lines 297-304): for each adjacent pair of samples
with `ccspec[i]*ccspec[i+1] < 0`, the linearly interpolated crossing
frequency together with `values[i] = ccspec[i]`, the sample just before the
crossing, which the source uses to classify the crossing direction. -/
def detectCrossings (wc : List (ℚ × ℚ)) : List (ℚ × ℚ) :=
  (wc.zip wc.tail).filterMap (fun q =>
    if q.1.2 * q.2.2 < 0 then
      some (-q.1.2 / (q.2.2 - q.1.2) * (q.2.1 - q.1.1) + q.1.1, q.1.2)
    else none)

lemma detectCrossings_nil : detectCrossings [] = [] := rfl

lemma detectCrossings_single (p : ℚ × ℚ) : detectCrossings [p] = [] := rfl

lemma detectCrossings_cons (w0 c0 w1 c1 : ℚ) (rest : List (ℚ × ℚ)) :
    detectCrossings ((w0, c0) :: (w1, c1) :: rest) =
      (if c0 * c1 < 0 then [(-c0 / (c1 - c0) * (w1 - w0) + w0, c0)] else []) ++
        detectCrossings ((w1, c1) :: rest) := by
  by_cases h : c0 * c1 < 0 <;>
    simp [detectCrossings, List.filterMap_cons, h]

/-- Lines 338-347 for a single crossing at `fc`: candidate velocities
`fc*2*pi*delta/z` against the given zero table, the in-range filter with
strict bounds `(velocities>min_vel)*(velocities<max_vel)`, and the `[::-1]`
reversal the source applies before appending. -/
def crossingVelRows (pi δ minv maxv : ℚ) (zeros : List ℚ) (fc : ℚ) : List (ℚ × ℚ) :=
  (((zeros.map (fun z => fc * 2 * pi * δ / z)).filter
      (fun v => decide (minv < v ∧ v < maxv))).reverse).map (fun v => (fc, v))

/-- The block of rows contributed by the negative-to-positive crossings
(`pos_crossings`, value before the crossing `< 0`), matched against the
odd-indexed zeros. -/
def pos_table (pi δ fmin fmax minv maxv : ℚ) (freq ccspec zeros : List ℚ) : List (ℚ × ℚ) :=
  (((detectCrossings (restricted fmin fmax freq ccspec)).filter
      (fun p => decide (p.2 < 0))).map Prod.fst).flatMap
    (crossingVelRows pi δ minv maxv (pos_bessel_zeros zeros))

/-- The block of rows contributed by the positive-to-negative crossings
(`neg_crossings`, value before the crossing `> 0`), matched against the
even-indexed zeros. -/
def neg_table (pi δ fmin fmax minv maxv : ℚ) (freq ccspec zeros : List ℚ) : List (ℚ × ℚ) :=
  (((detectCrossings (restricted fmin fmax freq ccspec)).filter
      (fun p => decide (0 < p.2))).map Prod.fst).flatMap
    (crossingVelRows pi δ minv maxv (neg_bessel_zeros zeros))

/-- Shallow embedding of `get_zero_crossings` (noise.py 231-352): the
`np.hstack`/`np.column_stack` of lines 349-352 concatenates the flat
positive-crossing block with the flat negative-crossing block and zips the
frequency and velocity columns into rows. -/
def get_zero_crossings (pi δ fmin fmax minv maxv : ℚ)
    (freq ccspec zeros : List ℚ) : List (ℚ × ℚ) :=
  pos_table pi δ fmin fmax minv maxv freq ccspec zeros ++
    neg_table pi δ fmin fmax minv maxv freq ccspec zeros

/-! ### Facts about the crossing scan -/

/-- Helper: a relation holding over all pairs of members renders a list
pairwise. -/
lemma pairwise_of_all {α : Type} (R : α → α → Prop) (l : List α)
    (h : ∀ a ∈ l, ∀ b ∈ l, R a b) : l.Pairwise R := by
  induction l with
  | nil => exact List.Pairwise.nil
  | cons a t ih =>
      exact List.Pairwise.cons (fun b hb => h a (.head t) b (.tail a hb))
        (ih fun x hx y hy => h x (.tail a hx) y (.tail a hy))

/-- The first components of a zip form a sublist of the first list. -/
lemma map_fst_zip_sublist (l1 : List ℚ) (l2 : List ℚ) :
    ((l1.zip l2).map Prod.fst).Sublist l1 := by
  induction l1 generalizing l2 with
  | nil => simp
  | cons a t ih =>
      cases l2 with
      | nil => simp
      | cons b t2 => simpa using (ih t2).cons₂ a

/-- The interpolation weight of a sign change lies strictly between 0 and 1. -/
lemma crossing_frac_mem (c0 c1 : ℚ) (h : c0 * c1 < 0) :
    0 < -c0 / (c1 - c0) ∧ -c0 / (c1 - c0) < 1 := by
  rcases mul_neg_iff.mp h with ⟨h0, h1⟩ | ⟨h0, h1⟩
  · have hd : c1 - c0 < 0 := by linarith
    constructor
    · apply div_pos_iff.mpr
      right
      constructor <;> linarith
    · rw [div_lt_one_iff]
      right; right
      constructor <;> linarith
  · have hd : 0 < c1 - c0 := by linarith
    constructor
    · apply div_pos_iff.mpr
      left
      constructor <;> linarith
    · rw [div_lt_one_iff]
      left
      constructor <;> linarith

/-- An interpolated crossing frequency lies strictly between the bracketing
samples. -/
lemma crossing_between (w0 w1 c0 c1 : ℚ) (hw : w0 < w1) (h : c0 * c1 < 0) :
    w0 < -c0 / (c1 - c0) * (w1 - w0) + w0 ∧
      -c0 / (c1 - c0) * (w1 - w0) + w0 < w1 := by
  obtain ⟨ht0, ht1⟩ := crossing_frac_mem c0 c1 h
  constructor
  · nlinarith
  · nlinarith

/-- Every crossing extracted from a strictly ascending sample list lies
strictly above the first sample's frequency. -/
lemma detectCrossings_lb (w0 c0 : ℚ) (rest : List (ℚ × ℚ))
    (h : List.Pairwise (fun p q : ℚ × ℚ => p.1 < q.1) ((w0, c0) :: rest)) :
    ∀ p ∈ detectCrossings ((w0, c0) :: rest), w0 < p.1 := by
  induction rest generalizing w0 c0 with
  | nil => intro p hp; simp [detectCrossings_single] at hp
  | cons q r ih =>
      obtain ⟨w1, c1⟩ := q
      intro p hp
      have h01 : w0 < w1 := (List.pairwise_cons.mp h).1 (w1, c1) (.head r)
      rw [detectCrossings_cons] at hp
      rcases List.mem_append.mp hp with hl | hr
      · split at hl
        · rcases List.mem_singleton.mp hl with rfl
          exact (crossing_between w0 w1 c0 c1 h01 (by assumption)).1
        · simp at hl
      · exact lt_trans h01 (ih w1 c1 (List.pairwise_cons.mp h).2 p hr)

/-- The crossing scan of a strictly ascending sample list yields strictly
ascending crossing frequencies. -/
lemma detectCrossings_pairwise (wc : List (ℚ × ℚ))
    (h : List.Pairwise (fun p q : ℚ × ℚ => p.1 < q.1) wc) :
    List.Pairwise (fun p q : ℚ × ℚ => p.1 < q.1) (detectCrossings wc) := by
  induction wc with
  | nil => simp [detectCrossings_nil, detectCrossings_single]
  | cons a rest ih =>
      obtain ⟨w0, c0⟩ := a
      cases rest with
      | nil => simp [detectCrossings_nil, detectCrossings_single]
      | cons b r =>
          obtain ⟨w1, c1⟩ := b
          have h01 : w0 < w1 := (List.pairwise_cons.mp h).1 (w1, c1) (.head r)
          have htail := (List.pairwise_cons.mp h).2
          rw [detectCrossings_cons]
          apply List.pairwise_append.mpr
          refine ⟨?_, ih htail, ?_⟩
          · split <;> simp
          · intro p hp q hq
            have hq1 : w1 < q.1 := detectCrossings_lb w1 c1 r htail q hq
            split at hp
            · rcases List.mem_singleton.mp hp with rfl
              have := (crossing_between w0 w1 c0 c1 h01 (by assumption)).2
              simpa using lt_trans this hq1
            · simp at hp

/-- Every crossing carries a nonzero before-value. -/
lemma detectCrossings_snd_ne_zero (wc : List (ℚ × ℚ)) :
    ∀ p ∈ detectCrossings wc, p.2 ≠ 0 := by
  induction wc with
  | nil => simp [detectCrossings_nil, detectCrossings_single]
  | cons a rest ih =>
      obtain ⟨w0, c0⟩ := a
      cases rest with
      | nil => simp [detectCrossings_nil, detectCrossings_single]
      | cons b r =>
          obtain ⟨w1, c1⟩ := b
          intro p hp
          rw [detectCrossings_cons] at hp
          rcases List.mem_append.mp hp with hl | hr
          · split at hl
            next hcc =>
              rcases List.mem_singleton.mp hl with rfl
              intro h0
              have hc0 : c0 = 0 := h0
              rw [hc0, zero_mul] at hcc
              exact lt_irrefl 0 hcc
            next => simp at hl
          · exact ih p hr

/-- Row membership in the per-crossing velocity rows. -/
lemma mem_crossingVelRows (pi δ minv maxv : ℚ) (zeros : List ℚ) (fc : ℚ)
    (p : ℚ × ℚ) :
    p ∈ crossingVelRows pi δ minv maxv zeros fc ↔
      p.1 = fc ∧ ∃ z ∈ zeros, p.2 = fc * 2 * pi * δ / z ∧ minv < p.2 ∧ p.2 < maxv := by
  obtain ⟨f, v⟩ := p
  simp only [crossingVelRows, List.mem_map, List.mem_reverse, List.mem_filter,
    List.mem_map, Prod.mk.injEq, decide_eq_true_eq]
  constructor
  · rintro ⟨v', ⟨⟨z, hz, rfl⟩, hb⟩, rfl, rfl⟩
    exact ⟨rfl, z, hz, rfl, hb⟩
  · rintro ⟨rfl, z, hz, rfl, hb⟩
    exact ⟨_, ⟨⟨z, hz, rfl⟩, hb⟩, rfl, rfl⟩

/-- First components of the per-crossing rows all equal the crossing
frequency. -/
lemma crossingVelRows_fst (pi δ minv maxv : ℚ) (zeros : List ℚ) (fc : ℚ) :
    ∀ p ∈ crossingVelRows pi δ minv maxv zeros fc, p.1 = fc := by
  intro p hp
  exact ((mem_crossingVelRows pi δ minv maxv zeros fc p).mp hp).1

/-- Flattening per-key row lists over strictly ascending keys yields a
`≤`-sorted first column. -/
lemma flatMap_fst_sorted (keys : List ℚ) (g : ℚ → List (ℚ × ℚ))
    (hg : ∀ f p, p ∈ g f → p.1 = f)
    (h : List.Pairwise (· < ·) keys) :
    List.Sorted (· ≤ ·) ((keys.flatMap g).map Prod.fst) := by
  induction keys with
  | nil => simp [List.Sorted]
  | cons k ks ih =>
      rw [List.flatMap_cons, List.map_append]
      apply List.pairwise_append.mpr
      obtain ⟨hk, hks⟩ := List.pairwise_cons.mp h
      refine ⟨?_, ih hks, ?_⟩
      · apply pairwise_of_all
        intro a ha b hb
        rcases List.mem_map.mp ha with ⟨p, hp, rfl⟩
        rcases List.mem_map.mp hb with ⟨q, hq, rfl⟩
        rw [hg k p hp, hg k q hq]
      · intro a ha b hb
        rcases List.mem_map.mp ha with ⟨p, hp, rfl⟩
        rcases List.mem_map.mp hb with ⟨q, hq, rfl⟩
        rcases List.mem_flatMap.mp hq with ⟨k', hk', hq'⟩
        rw [hg k p hp, hg k' q hq']
        exact le_of_lt (hk k' hk')

/-- The strictly ascending frequency keys of the positive-crossing block. -/
lemma pos_keys_pairwise (fmin fmax : ℚ) (freq ccspec : List ℚ)
    (h : List.Pairwise (· < ·) freq) (sel : ℚ × ℚ → Bool) :
    List.Pairwise (· < ·)
      ((((detectCrossings (restricted fmin fmax freq ccspec)).filter sel).map
        Prod.fst)) := by
  have hwc : List.Pairwise (fun p q : ℚ × ℚ => p.1 < q.1)
      (restricted fmin fmax freq ccspec) := by
    have hsub : ((restricted fmin fmax freq ccspec).map Prod.fst).Sublist freq := by
      refine List.Sublist.trans ?_ (map_fst_zip_sublist freq ccspec)
      exact List.Sublist.map Prod.fst (List.filter_sublist _)
    have := List.Pairwise.sublist hsub h
    exact (List.pairwise_map).mp this
  have hdet := detectCrossings_pairwise _ hwc
  have hfil := List.Pairwise.sublist (@List.filter_sublist _ sel _) hdet
  exact (List.pairwise_map).mpr hfil

/-- Shared membership characterization of the crossing table: a row `(f, v)`
appears iff `f` is a detected crossing whose before-value sign selects the
parity-matched zero subset containing a `z` with `v = f*2*pi*δ/z` strictly
inside `(min_vel, max_vel)`. -/
lemma mem_get_zero_crossings_iff (pi δ fmin fmax minv maxv : ℚ)
    (freq ccspec zeros : List ℚ) (f v : ℚ) :
    (f, v) ∈ get_zero_crossings pi δ fmin fmax minv maxv freq ccspec zeros ↔
      ∃ c, (f, c) ∈ detectCrossings (restricted fmin fmax freq ccspec) ∧
        ((c < 0 ∧ ∃ z ∈ pos_bessel_zeros zeros,
            v = f * 2 * pi * δ / z ∧ minv < v ∧ v < maxv) ∨
         (0 < c ∧ ∃ z ∈ neg_bessel_zeros zeros,
            v = f * 2 * pi * δ / z ∧ minv < v ∧ v < maxv)) := by
  constructor
  · intro hmem
    rcases List.mem_append.mp hmem with hpos | hneg
    · rcases List.mem_flatMap.mp hpos with ⟨fc, hfc, hrow⟩
      obtain ⟨hf, z, hz, hv, hb1, hb2⟩ :=
        (mem_crossingVelRows _ _ _ _ _ _ _).mp hrow
      rcases List.mem_map.mp hfc with ⟨p, hpfil, hp1⟩
      rcases List.mem_filter.mp hpfil with ⟨hpdet, hpneg⟩
      have hffst : f = fc := hf
      have hpair : (f, p.2) = p := by
        rw [hffst.trans hp1.symm]
      refine ⟨p.2, by rw [hpair]; exact hpdet,
        Or.inl ⟨by simpa using hpneg, z, hz, ?_, hb1, hb2⟩⟩
      rw [hffst]
      exact hv
    · rcases List.mem_flatMap.mp hneg with ⟨fc, hfc, hrow⟩
      obtain ⟨hf, z, hz, hv, hb1, hb2⟩ :=
        (mem_crossingVelRows _ _ _ _ _ _ _).mp hrow
      rcases List.mem_map.mp hfc with ⟨p, hpfil, hp1⟩
      rcases List.mem_filter.mp hpfil with ⟨hpdet, hppos⟩
      have hffst : f = fc := hf
      have hpair : (f, p.2) = p := by
        rw [hffst.trans hp1.symm]
      refine ⟨p.2, by rw [hpair]; exact hpdet,
        Or.inr ⟨by simpa using hppos, z, hz, ?_, hb1, hb2⟩⟩
      rw [hffst]
      exact hv
  · rintro ⟨c, hdet, ⟨hc, z, hz, hv, hb1, hb2⟩ | ⟨hc, z, hz, hv, hb1, hb2⟩⟩
    · apply List.mem_append.mpr
      left
      apply List.mem_flatMap.mpr
      refine ⟨f, ?_, (mem_crossingVelRows _ _ _ _ _ _ _).mpr ⟨rfl, z, hz, hv, hb1, hb2⟩⟩
      apply List.mem_map.mpr
      exact ⟨(f, c), List.mem_filter.mpr ⟨hdet, by simpa using hc⟩, rfl⟩
    · apply List.mem_append.mpr
      right
      apply List.mem_flatMap.mpr
      refine ⟨f, ?_, (mem_crossingVelRows _ _ _ _ _ _ _).mpr ⟨rfl, z, hz, hv, hb1, hb2⟩⟩
      apply List.mem_map.mpr
      exact ⟨(f, c), List.mem_filter.mpr ⟨hdet, by simpa using hc⟩, rfl⟩

/-- C2, counterexample: the returned table is *not* sorted by its frequency
column.  On the spectrum `[1, -1, 1]` over frequencies `[1, 2, 3]` the
positive-to-negative crossing at `f = 1.5` is emitted *after* the
negative-to-positive crossing at `f = 2.5`, because the source stacks the
whole negative-to-positive block before the whole positive-to-negative
block (lines 349-352).  Kernel zeros are the first six zeros of `J0`
(rational approximations); `pi = 3.1416`. -/
theorem get_zero_crossings_sorted_cex :
    ¬ List.Sorted (· ≤ ·)
        ((get_zero_crossings (3927/1250) 1 0 99 1 5 [1, 2, 3] [1, -1, 1]
          [24048/10000, 55201/10000, 86537/10000, 117915/10000, 149309/10000,
            180711/10000]).map Prod.fst) := by
  decide

/-- C2, amended: the table is the concatenation of the
negative-to-positive-crossing block and the positive-to-negative-crossing
block, and the frequency column of *each block* is sorted ascending
(non-decreasing; rows of one crossing share its frequency), provided the
input frequency axis is strictly ascending. -/
theorem get_zero_crossings_blockwise_sorted
    (pi δ fmin fmax minv maxv : ℚ) (freq ccspec zeros : List ℚ)
    (h : List.Pairwise (· < ·) freq) :
    get_zero_crossings pi δ fmin fmax minv maxv freq ccspec zeros =
        pos_table pi δ fmin fmax minv maxv freq ccspec zeros ++
          neg_table pi δ fmin fmax minv maxv freq ccspec zeros ∧
      List.Sorted (· ≤ ·)
        ((pos_table pi δ fmin fmax minv maxv freq ccspec zeros).map Prod.fst) ∧
      List.Sorted (· ≤ ·)
        ((neg_table pi δ fmin fmax minv maxv freq ccspec zeros).map Prod.fst) := by
  refine ⟨rfl, ?_, ?_⟩
  · exact flatMap_fst_sorted _ _
      (fun fc => crossingVelRows_fst pi δ minv maxv (pos_bessel_zeros zeros) fc)
      (pos_keys_pairwise fmin fmax freq ccspec h _)
  · exact flatMap_fst_sorted _ _
      (fun fc => crossingVelRows_fst pi δ minv maxv (neg_bessel_zeros zeros) fc)
      (pos_keys_pairwise fmin fmax freq ccspec h _)

/-- Witness for the amended C2 at the counterexample input. -/
theorem get_zero_crossings_blockwise_sorted_witness :
    List.Pairwise (· < ·) [(1 : ℚ), 2, 3] ∧
      (get_zero_crossings (3927/1250) 1 0 99 1 5 [1, 2, 3] [1, -1, 1]
            [24048/10000, 55201/10000, 86537/10000, 117915/10000,
              149309/10000, 180711/10000] =
          pos_table (3927/1250) 1 0 99 1 5 [1, 2, 3] [1, -1, 1]
              [24048/10000, 55201/10000, 86537/10000, 117915/10000,
                149309/10000, 180711/10000] ++
            neg_table (3927/1250) 1 0 99 1 5 [1, 2, 3] [1, -1, 1]
              [24048/10000, 55201/10000, 86537/10000, 117915/10000,
                149309/10000, 180711/10000] ∧
        List.Sorted (· ≤ ·)
          ((pos_table (3927/1250) 1 0 99 1 5 [1, 2, 3] [1, -1, 1]
            [24048/10000, 55201/10000, 86537/10000, 117915/10000,
              149309/10000, 180711/10000]).map Prod.fst) ∧
        List.Sorted (· ≤ ·)
          ((neg_table (3927/1250) 1 0 99 1 5 [1, 2, 3] [1, -1, 1]
            [24048/10000, 55201/10000, 86537/10000, 117915/10000,
              149309/10000, 180711/10000]).map Prod.fst)) :=
  ⟨by decide,
    get_zero_crossings_blockwise_sorted (3927/1250) 1 0 99 1 5 [1, 2, 3]
      [1, -1, 1] _ (by decide)⟩

/-- C3, counterexample to the claim's *closed* velocity interval: with zero
table `[9]`, `pi = 3`, distance `1`, the positive-to-negative crossing at
`f = 3/2` yields the candidate `v = 3/2 * 2 * 3 * 1 / 9 = 1 = min_vel`,
which lies in the closed interval `[1, 5]`, is computed from a detected
crossing and a parity-matched (even-indexed) zero, and yet does not appear
in the output: the source keeps only `velocities > min_vel` (strict,
line 345). -/
theorem get_zero_crossings_closed_interval_cex :
    ((3/2 : ℚ), (1 : ℚ)) ∈ detectCrossings (restricted 0 99 [1, 2] [1, -1]) ∧
      (9 : ℚ) ∈ neg_bessel_zeros [9] ∧
      (1 : ℚ) = (3/2 : ℚ) * 2 * 3 * 1 / 9 ∧
      (1 : ℚ) ≤ (1 : ℚ) ∧ (1 : ℚ) ≤ (5 : ℚ) ∧
      ((3/2 : ℚ), (1 : ℚ)) ∉ get_zero_crossings 3 1 0 99 1 5 [1, 2] [1, -1] [9] := by
  refine ⟨by decide, by decide, by norm_num, le_refl 1, by norm_num, by decide⟩

/-- C3, amended: a row `(f, v)` appears in the table iff `f` is a detected
crossing and `v = f*2*pi*distance/z` for a parity-matched kernel zero `z`
with `v` strictly inside the *open* interval `(min_vel, max_vel)`; and
conversely every such candidate appears. -/
theorem get_zero_crossings_row_characterization (pi δ fmin fmax minv maxv : ℚ)
    (freq ccspec zeros : List ℚ) (f v : ℚ) :
    (f, v) ∈ get_zero_crossings pi δ fmin fmax minv maxv freq ccspec zeros ↔
      ∃ c, (f, c) ∈ detectCrossings (restricted fmin fmax freq ccspec) ∧
        ((c < 0 ∧ ∃ z ∈ pos_bessel_zeros zeros,
            v = f * 2 * pi * δ / z ∧ minv < v ∧ v < maxv) ∨
         (0 < c ∧ ∃ z ∈ neg_bessel_zeros zeros,
            v = f * 2 * pi * δ / z ∧ minv < v ∧ v < maxv)) :=
  mem_get_zero_crossings_iff pi δ fmin fmax minv maxv freq ccspec zeros f v

/-- Witness for the amended C3: the candidate `9/4 ∈ (1, 5)` built from the
crossing at `3/2` and the parity-matched zero `4` appears in the table. -/
theorem get_zero_crossings_row_characterization_witness :
    ((3/2 : ℚ), (9/4 : ℚ)) ∈ get_zero_crossings 3 1 0 99 1 5 [1, 2] [1, -1] [4] :=
  (get_zero_crossings_row_characterization 3 1 0 99 1 5 [1, 2] [1, -1] [4]
      (3/2) (9/4)).mpr
    ⟨1, by decide, Or.inr ⟨by norm_num, 4, by decide, by norm_num, by norm_num,
      by norm_num⟩⟩

/-- Membership in the even-position slice `l[0::2]`. -/
lemma mem_everyOther (l : List ℚ) (z : ℚ) :
    z ∈ everyOther l ↔ ∃ k, 2 * k < l.length ∧ l.getD (2 * k) 0 = z := by
  induction l using everyOther.induct with
  | case1 =>
      constructor
      · intro h; simp [everyOther] at h
      · rintro ⟨k, hk, _⟩; simp at hk
  | case2 a =>
      constructor
      · intro h
        rw [show everyOther [a] = [a] from rfl] at h
        exact ⟨0, by simp, by simpa using (List.mem_singleton.mp h).symm⟩
      · rintro ⟨k, hk, hz⟩
        have hk0 : k = 0 := by simp at hk; omega
        subst hk0
        rw [show everyOther [a] = [a] from rfl]
        simpa using hz.symm
  | case3 a b rest ih =>
      rw [show everyOther (a :: b :: rest) = a :: everyOther rest from rfl]
      simp only [List.mem_cons, ih]
      constructor
      · rintro (rfl | ⟨k, hk, hz⟩)
        · exact ⟨0, by simp, by simp⟩
        · refine ⟨k + 1, ?_, ?_⟩
          · simp only [List.length_cons]; omega
          · have h2 : 2 * (k + 1) = 2 * k + 1 + 1 := by ring
            rw [h2, List.getD_cons_succ, List.getD_cons_succ]
            exact hz
      · rintro ⟨k, hk, hz⟩
        match k, hk, hz with
        | 0, hk, hz => exact Or.inl (by simpa using hz.symm)
        | k + 1, hk, hz =>
            refine Or.inr ⟨k, ?_, ?_⟩
            · simp only [List.length_cons] at hk; omega
            · have h2 : 2 * (k + 1) = 2 * k + 1 + 1 := by ring
              rw [h2, List.getD_cons_succ, List.getD_cons_succ] at hz
              exact hz

lemma getD_drop_one (l : List ℚ) (n : ℕ) : (l.drop 1).getD n 0 = l.getD (n + 1) 0 := by
  cases l <;> simp

/-- Membership in `bessel_zeros[1::2]` is membership at an odd index. -/
lemma mem_pos_bessel_zeros (zeros : List ℚ) (z : ℚ) :
    z ∈ pos_bessel_zeros zeros ↔
      ∃ k, 2 * k + 1 < zeros.length ∧ zeros.getD (2 * k + 1) 0 = z := by
  rw [pos_bessel_zeros, mem_everyOther]
  constructor
  · rintro ⟨k, hk, hz⟩
    rw [List.length_drop] at hk
    refine ⟨k, by omega, ?_⟩
    rw [← getD_drop_one]
    exact hz
  · rintro ⟨k, hk, hz⟩
    refine ⟨k, ?_, ?_⟩
    · rw [List.length_drop]; omega
    · rw [getD_drop_one]; exact hz

/-- Membership in `bessel_zeros[0::2]` is membership at an even index. -/
lemma mem_neg_bessel_zeros (zeros : List ℚ) (z : ℚ) :
    z ∈ neg_bessel_zeros zeros ↔
      ∃ k, 2 * k < zeros.length ∧ zeros.getD (2 * k) 0 = z :=
  mem_everyOther zeros z

/-- Parity provenance of a table row `p`: its frequency is a detected
crossing classified by the sign of the sample just before it, and its
velocity was computed against an odd-indexed kernel zero when that sign is
negative (negative-to-positive crossing), resp. an even-indexed zero when
it is positive (positive-to-negative crossing). -/
def parityProvenance (pi δ : ℚ) (zeros : List ℚ) (wc : List (ℚ × ℚ))
    (p : ℚ × ℚ) : Prop :=
  ∃ c, (p.1, c) ∈ detectCrossings wc ∧ c ≠ 0 ∧
    ((c < 0 ∧ ∃ k, 2 * k + 1 < zeros.length ∧
        p.2 = p.1 * 2 * pi * δ / zeros.getD (2 * k + 1) 0) ∨
     (0 < c ∧ ∃ k, 2 * k < zeros.length ∧
        p.2 = p.1 * 2 * pi * δ / zeros.getD (2 * k) 0))

/-- C4: every row of the crossing table arises from a spectral sign change
classified by the sample just before the crossing; negative-to-positive
crossings are matched only against odd-indexed kernel zeros and
positive-to-negative crossings only against even-indexed kernel zeros, and
the two parity classes are never mixed. -/
theorem crossing_parity_matching (pi δ fmin fmax minv maxv : ℚ)
    (freq ccspec zeros : List ℚ) :
    ∀ p ∈ get_zero_crossings pi δ fmin fmax minv maxv freq ccspec zeros,
      parityProvenance pi δ zeros (restricted fmin fmax freq ccspec) p := by
  rintro ⟨f, v⟩ hp
  obtain ⟨c, hdet, hcase⟩ :=
    (mem_get_zero_crossings_iff pi δ fmin fmax minv maxv freq ccspec zeros f v).mp hp
  refine ⟨c, hdet, detectCrossings_snd_ne_zero _ _ hdet, ?_⟩
  rcases hcase with ⟨hc, z, hz, hv, _, _⟩ | ⟨hc, z, hz, hv, _, _⟩
  · left
    obtain ⟨k, hk, hzk⟩ := (mem_pos_bessel_zeros zeros z).mp hz
    exact ⟨hc, k, hk, by rw [hzk]; exact hv⟩
  · right
    obtain ⟨k, hk, hzk⟩ := (mem_neg_bessel_zeros zeros z).mp hz
    exact ⟨hc, k, hk, by rw [hzk]; exact hv⟩

/-- Witness for C4 at the concrete row `(3/2, 9/4)` of a one-zero table. -/
theorem crossing_parity_matching_witness :
    parityProvenance 3 1 [4] (restricted 0 99 [1, 2] [1, -1]) (3/2, 9/4) :=
  crossing_parity_matching 3 1 0 99 1 5 [1, 2] [1, -1] [4] (3/2, 9/4) (by decide)

/-! ## extract_phase_velocity (noise.py 356-757)

The sequential picker.  The embedding is a step function over an explicit
state (current index into the crossing-frequency axis, running pick list,
saved fallback pick list, error counter, frequency of the last accepted
pick) iterated with fuel; running out of fuel is modelled as an error, so
every `ok` result of the embedding corresponds to a terminating run.  The
source's arithmetic is rational throughout and is embedded exactly, except
for two decisions that involve transcendental functions of float data and
are abstracted as oracle parameters of the context (see `SeqCtx`); all
theorems are quantified over the oracles.  Dead source branches guarded by
`len(pick)>2` immediately after `pick=[]` (lines 545-546, 559-560,
656-657) are no-ops and are embedded as such. -/

/-- Stable insertion into a list sorted by distance from `t` (earlier
elements stay first on ties). -/
def insertByDist (t a : ℚ) : List ℚ → List ℚ
  | [] => [a]
  | b :: r => if |b - t| < |a - t| then b :: insertByDist t a r else a :: b :: r

/-- `np.argsort(np.abs(l - t))` realised as the stably sorted value list. -/
def sortByDist (t : ℚ) (l : List ℚ) : List ℚ := l.foldr (insertByDist t) []

/-- `l[np.abs(l - t).argmin()]`: the first value of `l` minimising the
distance to `t` (`0` on the empty list, which the source never queries). -/
def closestTo (t : ℚ) (l : List ℚ) : ℚ := (sortByDist t l).headD 0

/-- `np.argmin`: first index of the minimum. -/
def idxMinQAux : List ℚ → ℕ → ℕ → ℚ → ℕ
  | [], _, best, _ => best
  | a :: r, i, best, bv =>
      if a < bv then idxMinQAux r (i + 1) i a else idxMinQAux r (i + 1) best bv

/-- `np.argmin` over a list of rationals. -/
def idxMinQ : List ℚ → ℕ
  | [] => 0
  | a :: r => idxMinQAux r 1 0 a

/-- `scipy.stats.linregress` restricted to the (slope, intercept) outputs
the picker uses: the least-squares line through the points. -/
def linregressQ (pts : List (ℚ × ℚ)) : ℚ × ℚ :=
  let n : ℚ := pts.length
  let sx := pySum (pts.map Prod.fst)
  let sy := pySum (pts.map Prod.snd)
  let sxy := pySum (pts.map (fun p => p.1 * p.2))
  let sxx := pySum (pts.map (fun p => p.1 ^ 2))
  let slope := (n * sxy - sx * sy) / (n * sxx - sx ^ 2)
  (slope, (sy - slope * sx) / n)

/-- `scipy.interpolate.interp1d(..., kind='linear')` evaluated at `x`, with
linear extrapolation from the first/last segment outside the domain (the
behaviour of `fill_value='extrapolate'`; for queries inside the domain this
coincides with the default interpolant, which is the only way the
sequential picker queries it). -/
def interp_lin : List (ℚ × ℚ) → ℚ → ℚ
  | [], _ => 0
  | p0 :: tail, x =>
      match tail with
      | [] => p0.2
      | p1 :: rest =>
          if x ≤ p1.1 ∨ rest = [] then
            p0.2 + (p1.2 - p0.2) * (x - p0.1) / (p1.1 - p0.1)
          else interp_lin tail x

/-- `np.unique`: ascending sort, duplicates removed. -/
def np_unique (l : List ℚ) : List ℚ := (l.insertionSort (· ≤ ·)).dedup

/-- `dv_cycle` (lines 454, 865): the velocity offset of one 2π branch jump
at `(freq, ref_vel)`. -/
def dv_cycle_at (δ freq ref_vel : ℚ) : ℚ :=
  |ref_vel - 1 / (1 / (δ * freq) + 1 / ref_vel)|

/-- `pick[-1][0] - pick[0][0]`, the frequency span of a pick list. -/
def pickSpan (pick : List (ℚ × ℚ)) : ℚ :=
  (pick.getLastD (0, 0)).1 - (pick.headD (0, 0)).1

/-- Context of one `extract_phase_velocity` call.  The scalar and array
fields are the call inputs (`ccspec` is the real part of the spectrum,
covering the optional pre-smoothing as in `get_zero_crossings`; `zeros` is
the kernel-zero table).  The two `Bool`-valued fields are oracles
abstracting the only non-rational decisions of the picker:

* `ampLow i` models the amplitude-gate comparison of lines 443-444 (a
  maximum over the float spectrum near `w_axis[i]`, only consulted when
  `min_amp ≠ 0`);
* `slopeDiv s s_ref` models
  `|arctan(slope) - arctan(slope_ref)| > 0.7*pi` of line 598.

Every theorem is quantified over the oracles, hence covers the actual
float-valued decisions of any execution. -/
structure SeqCtx where
  pi : ℚ
  δ : ℚ
  fmin : ℚ
  fmax : ℚ
  minv : ℚ
  maxv : ℚ
  min_amp : ℚ
  frequencies : List ℚ
  ccspec : List ℚ
  ref_curve : List (ℚ × ℚ)
  zeros : List ℚ
  ampLow : ℕ → Bool
  slopeDiv : ℚ → ℚ → Bool

/-- The crossing table of the call (line 400). -/
def SeqCtx.crossings (c : SeqCtx) : List (ℚ × ℚ) :=
  get_zero_crossings c.pi c.δ c.fmin c.fmax c.minv c.maxv c.frequencies c.ccspec c.zeros

/-- `w_axis = np.unique(crossings[:,0])` restricted strictly inside the
reference-curve frequency domain (lines 409-410). -/
def SeqCtx.wA (c : SeqCtx) : List ℚ :=
  (np_unique (c.crossings.map Prod.fst)).filter (fun w =>
    decide (listMin (c.ref_curve.map Prod.fst) < w ∧
      w < listMax (c.ref_curve.map Prod.fst)))

/-- `cross[w_axis[i]] = crossings[:,1][crossings[:,0] == w_axis[i]]`
(lines 412-414). -/
def SeqCtx.crossAt (c : SeqCtx) (i : ℕ) : List ℚ :=
  (c.crossings.filter (fun p => decide (p.1 = c.wA.getD i 0))).map Prod.snd

/-- `ref_velocities[i] = interp1d(ref_curve)(w_axis[i])` (lines 416-417). -/
def SeqCtx.rv (c : SeqCtx) (i : ℕ) : ℚ := interp_lin c.ref_curve (c.wA.getD i 0)

def SeqCtx.wmin (c : SeqCtx) : ℚ := listMin c.wA

def SeqCtx.wmax (c : SeqCtx) : ℚ := listMax c.wA

/-- `np.max(w_axis) - np.min(w_axis)`, the restricted frequency-axis width. -/
def SeqCtx.width (c : SeqCtx) : ℚ := c.wmax - c.wmin

/-- `np.max(ref_curve[:,1]) - np.min(ref_curve[:,1])`, the reference
curve's velocity span. -/
def SeqCtx.refSpan (c : SeqCtx) : ℚ :=
  listMax (c.ref_curve.map Prod.snd) - listMin (c.ref_curve.map Prod.snd)

/-- The candidate closest to the reference velocity at index `i`
(lines 430-432). -/
def fp_closest (c : SeqCtx) (i : ℕ) : ℚ := closestTo (c.rv i) (c.crossAt i)

/-- `dv_cycle` at index `i`. -/
def fp_dv (c : SeqCtx) (i : ℕ) : ℚ := dv_cycle_at c.δ (c.wA.getD i 0) (c.rv i)

/-- `np.min(np.abs(velocities[idx_closest_vel[1:3]] - closest_vel))`
(line 470): distance from the closest candidate to the nearer of the
second- and third-closest candidates. -/
def fp_seconds_min (c : SeqCtx) (i : ℕ) : ℚ :=
  listMin ((((sortByDist (c.rv i) (c.crossAt i)).drop 1).take 2).map
    (fun v => |v - fp_closest c i|))

/-- `idxmax` of the forward probe (lines 483-489): 5% of the axis width in
units of the expected crossing spacing, clamped to `[3,6]` and to the
remaining axis length. -/
def probe_idxmax (c : SeqCtx) (i : ℕ) : ℕ :=
  let a0 : ℤ := ⌈c.width * (1/20) / (c.rv i / (2 * c.δ))⌉
  let a1 : ℤ := if a0 < 3 then 3 else a0
  let a2 : ℤ := if a1 > 6 then 6 else a1
  if (c.wA.length - i : ℤ) < a2 then c.wA.length - i else a2.toNat

/-- `start_picks` (lines 490-492): the closest-to-reference candidate at
each of the next `probe_idxmax` axis indices. -/
def start_picks_of (c : SeqCtx) (i : ℕ) : List ℚ :=
  (List.range (probe_idxmax c i)).map (fun j => closestTo (c.rv (i + j)) (c.crossAt (i + j)))

/-- The forward-probe variance ratio (line 496):
`np.var(start_picks)/np.var(ref_velocities[i:i+idxmax])`. -/
def probeVarRatio (c : SeqCtx) (i : ℕ) : ℚ :=
  npVar (start_picks_of c i) /
    npVar ((List.range (probe_idxmax c i)).map (fun j => c.rv (i + j)))

/-- Outcome of the first-pick search at one index. -/
inductive FPResult where
  | brk : FPResult
  | skip : FPResult
  | skipLate : FPResult
  | accept : ℚ → FPResult
deriving DecidableEq

/-- The first-pick search step (lines 453-500), evaluated in a state with
`pick = []` at index `i` (the amplitude gate, lines 436-451, precedes this
block and is handled by the caller).  `skipLate` is the cycles-too-close
path, after which the caller advances `i` and breaks when the new `i`
exceeds 20. -/
def first_pick_step (c : SeqCtx) (i : ℕ) : FPResult :=
  if fp_dv c i / c.refSpan < 1/3 then .brk
  else if |fp_closest c i - c.rv i| > fp_dv c i / 2 then .skip
  else if 2 ≤ (c.crossAt i).length ∧ fp_seconds_min c i < 1/5 then .skipLate
  else if (start_picks_of c i).length < 2 then .skip
  else if probeVarRatio c i > 20 then .skip
  else .accept (fp_closest c i)

/-- Mutable state of the picking loop (lines 419-423): the cursor `i`, the
running `pick` list, the saved `old_picks` fallback, the error counter and
`previous_freq`, the frequency of the last accepted pick (unset before the
first append in Python and never read before it; initialised to `0`).  The
call context is carried as part of the state so that its preservation — the
picker never writes to its input arrays — is a provable statement about
every step. -/
structure SeqState where
  ctx : SeqCtx
  i : ℕ
  pick : List (ℚ × ℚ)
  old_picks : List (ℚ × ℚ)
  picking_errors : ℕ
  previous_freq : ℚ

/-- One loop-body outcome: continue to the next iteration or break out. -/
inductive SeqStepRes where
  | cont : SeqState → SeqStepRes
  | brk : SeqState → SeqStepRes

/-- Lines 711-724: append `(w_axis[i'], v)`, set `previous_freq`, advance
the cursor, and apply the no-picks-over-half-the-axis break (line 720),
which clears the running list before breaking. -/
def appendPick (s : SeqState) (i' : ℕ) (v : ℚ) : SeqStepRes :=
  let freq := s.ctx.wA.getD i' 0
  let pick' := s.pick ++ [(freq, v)]
  let s' := { s with pick := pick', previous_freq := freq, i := i' + 1 }
  if pick'.length < 3 ∧ freq > s.ctx.width / 2 + s.ctx.wmin then
    .brk { s' with pick := [] }
  else .cont s'

/-- `np.mean(np.array(pick)[-4:-1,1])` (line 630). -/
def lastPickMean3 (pick : List (ℚ × ℚ)) : ℚ :=
  npMean (((pick.drop (pick.length - 4)).dropLast).map Prod.snd)

/-- The small-frequency-step block (lines 531-565).  `Sum.inl` is an
immediate loop outcome (restart-`continue` or break), `Sum.inr` the state
(with its error counter possibly incremented) in which the iteration
proceeds.  The `len(pick)<2` sub-branch (lines 532-537) is dead — this
block runs with at least two picks — and is omitted. -/
def smallStepCheck (s : SeqState) (freq freq_step dv_cycle : ℚ) :
    Sum SeqStepRes SeqState :=
  let c := s.ctx
  let pick := s.pick
  if freq - s.previous_freq < freq_step * (1/2) then
    if pick.length < 4 ∧ pickSpan pick / c.width < 1/10 then
      Sum.inl (.cont { s with
        old_picks := if pick.length > s.old_picks.length then pick else s.old_picks,
        pick := [], picking_errors := 0 })
    else
      let e1 := s.picking_errors + 1
      if e1 > 2 ∧ pickSpan pick / c.width < 1/10 ∧ pick.length < 9 ∧
          dv_cycle / c.refSpan > 1/2 then
        Sum.inl (.cont { s with
          old_picks := if pick.length > s.old_picks.length then pick else s.old_picks,
          pick := [], picking_errors := 0 })
      else if e1 > 6 then Sum.inl (.brk { s with picking_errors := e1 })
      else Sum.inr { s with picking_errors := e1 }
  else Sum.inr s

/-- The only-negative-slopes retry loop (lines 588-594): widen the
regression window while the fitted line still predicts an increase. -/
def negSlopeLoop (freq lastv : ℚ) (pick : List (ℚ × ℚ)) (npicks : ℕ) :
    ℕ → ℕ → ℚ × ℚ → ℚ × ℚ
  | 0, _, si => si
  | fuel + 1, j, si =>
      if si.1 * freq + si.2 - lastv > 0 then
        let si' := linregressQ (pick.drop (pick.length - (npicks + j)))
        if pick.length < npicks + (j + 1) then si'
        else negSlopeLoop freq lastv pick npicks fuel (j + 1) si'
      else si

/-- The slope/intercept prediction section (lines 566-612).  `Sum.inl` is
an immediate outcome (slope-divergence restart or break), `Sum.inr` the
`(slope, intercept)` used for the prediction.  `npicks` is 5% of the axis
width in units of `freq_step`, clamped to `[3,8]` (lines 567-572).  With
fewer picks than `npicks` the slope comes from the reference curve
(lines 573-578); otherwise from a regression over the last picks, possibly
excluding a shifted last pick (lines 580-587), corrected by the
negative-slope loop, and checked against the reference slope by the
`slopeDiv` oracle (line 598). -/
def slopeSection (s : SeqState) (i : ℕ) (freq freq_step : ℚ) :
    Sum SeqStepRes (SeqState × ℚ × ℚ) :=
  let c := s.ctx
  let pick := s.pick
  let lastp := pick.getLastD (0, 0)
  let n0 : ℤ := ⌈c.width * (1/20) / freq_step⌉
  let n1 : ℤ := if n0 < 3 then 3 else n0
  let npicks : ℕ := (if n1 > 8 then 8 else n1).toNat
  if pick.length < npicks then
    let slope := if i + 1 < c.wA.length then
        (c.rv (i + 1) - c.rv (i - 1)) / (c.wA.getD (i + 1) 0 - c.wA.getD (i - 1) 0)
      else
        (c.rv i - c.rv (i - 2)) / (c.wA.getD i 0 - c.wA.getD (i - 2) 0)
    Sum.inr (s, slope, lastp.2 - slope * lastp.1)
  else
    let prev2 := pick.getD (pick.length - 2) (0, 0)
    let si0 := if lastp.1 - prev2.1 < freq_step * (2/3) ∧ npicks > 3 then
        linregressQ ((pick.drop (pick.length - npicks)).dropLast)
      else linregressQ (pick.drop (pick.length - npicks))
    let si := negSlopeLoop freq lastp.2 pick npicks (pick.length + 2) 1 si0
    let slope_ref := (linregressQ ((List.range (npicks + 1)).map (fun j =>
        (c.wA.getD (i - npicks + j) 0, c.rv (i - npicks + j))))).1
    if c.slopeDiv si.1 slope_ref then
      if pickSpan pick / c.width < 1/10 then
        Sum.inl (.cont { s with
          old_picks := if pick.length > s.old_picks.length then pick else s.old_picks,
          pick := [], picking_errors := 0, i := i + 1 })
      else Sum.inl (.brk s)
    else Sum.inr (s, si.1, si.2)

/-- The `best_next_crossings`/`predicted_vels` accumulation loop
(lines 614-637): for each upcoming axis index within `2.5*freq_step` of
the previous pick, the candidate closest to the prediction, replaced by the
marker `999` when it fails the branch-jump (`0.6π`) or sustained-jump
(`1.5π`) criterion. -/
def bncBuild (c : SeqCtx) (i : ℕ) (pick : List (ℚ × ℚ))
    (slope intercept prev fs : ℚ) : ℕ → ℕ → List (ℚ × ℚ) × List ℚ
  | _, 0 => ([], [])
  | j, fuel + 1 =>
      if i + j < c.wA.length ∧ c.wA.getD (i + j) 0 - prev < (5/2) * fs then
        let w := c.wA.getD (i + j) 0
        let predicted := slope * w + intercept
        let pot := closestTo predicted (c.crossAt (i + j))
        let entry :=
          if |2 * c.pi * c.δ * w * (1 / pot - 1 / predicted)| > (3/5) * c.pi then
            (w, (999 : ℚ))
          else if pick.length > 3 ∧
              |2 * c.pi * c.δ * w * (1 / pot - 1 / lastPickMean3 pick)| > (3/2) * c.pi then
            (w, (999 : ℚ))
          else (w, pot)
        let rest := bncBuild c i pick slope intercept prev fs (j + 1) fuel
        (entry :: rest.1, predicted :: rest.2)
      else ([], [])

/-- The candidate-choice block (lines 639-713): the zero crossing closest
to the previous pick as a fallback `reference_pick`, the
no-suitable-candidate restart/break, the prefer-the-very-next-crossing
shortcut, the closest-to-prediction choice with its noisy-data restart, and
the final comparison against the closest-to-reference candidate. -/
def chooseStep (s : SeqState) (i : ℕ) (freq : ℚ) (velocities : List ℚ)
    (closest_vel freq_step slope intercept : ℚ) : SeqStepRes :=
  let c := s.ctx
  let pick := s.pick
  let lastp := pick.getLastD (0, 0)
  let bp := bncBuild c i pick slope intercept s.previous_freq freq_step 0 (c.wA.length + 1)
  let best := bp.1
  let pvs := bp.2
  let closest_prev := closestTo lastp.2 velocities
  let reference_pick : ℚ :=
    if freq - s.previous_freq < (4/3) * freq_step ∧
        freq - s.previous_freq > (2/3) * freq_step ∧
        |2 * c.pi * c.δ * freq * (1 / closest_prev - 1 / lastp.2)| < (1/2) * c.pi then
      closest_prev
    else 0
  if reference_pick = 0 ∧ (best.length = 0 ∨ best.all (fun p => decide (p.2 = 999))) then
    (if pick.length < 8 ∨ pickSpan pick / c.width < 1/10 then
      .cont { s with
        old_picks := if pick.length > s.old_picks.length then pick else s.old_picks,
        pick := [] }
    else .brk s)
  else if best.length = 0 then appendPick s i reference_pick
  else if best.all (fun p => decide (p.2 = 999)) then appendPick s i reference_pick
  else
    let b0 := best.headD (0, 0)
    let pv0 := pvs.headD 0
    if b0.1 - s.previous_freq < (5/3) * freq_step ∧
        |2 * c.pi * c.δ * b0.1 * (1 / b0.2 - 1 / pv0)| < (3/4) * c.pi then
      (if |b0.2 - pv0| < |closest_vel - pv0| then appendPick s i b0.2
      else appendPick s i closest_vel)
    else
      let idx := idxMinQ ((best.zip pvs).map (fun q => |q.1.2 - q.2|))
      if idx > pick.length then .cont { s with i := i + 1, pick := [] }
      else if |(best.getD idx (0, 0)).2 - pvs.getD idx 0| < |closest_vel - pv0| then
        appendPick { s with picking_errors :=
            if idx ≠ 0 then s.picking_errors + 1 else s.picking_errors }
          (i + idx) (best.getD idx (0, 0)).2
      else appendPick s i closest_vel

/-- The tracking branch of the loop body (`len(pick) > 1`, lines 517-713),
in the order of the source: first-two-picks velocity-increase restart,
small-frequency-step block, slope section, candidate choice. -/
def trackStep (s : SeqState) (i : ℕ) (freq : ℚ) (velocities : List ℚ)
    (closest_vel dv_cycle : ℚ) : SeqStepRes :=
  let pick := s.pick
  let lastp := pick.getLastD (0, 0)
  let freq_step := lastp.2 / (2 * s.ctx.δ)
  if pick.length = 2 ∧ lastp.2 - (pick.getD (pick.length - 2) (0, 0)).2 > 1/10 then
    .cont { s with pick := [], i := i + 1 }
  else
    (smallStepCheck s freq freq_step dv_cycle).elim (fun r => r) (fun s1 =>
      (slopeSection s1 i freq freq_step).elim (fun r => r) (fun t =>
        chooseStep t.1 i freq velocities closest_vel freq_step t.2.1 t.2.2))

/-- The first-pick branch of the loop body (`len(pick) == 0`,
lines 453-500 together with the shared append of lines 709-724): break,
skip, cycles-too-close skip with its `i > 20` break (lines 474-479), or
append the accepted candidate. -/
def firstPickBranch (s : SeqState) : SeqStepRes :=
  match first_pick_step s.ctx s.i with
  | .brk => .brk s
  | .skip => .cont { s with i := s.i + 1 }
  | .skipLate =>
      if s.i + 1 > 20 then .brk { s with i := s.i + 1 }
      else .cont { s with i := s.i + 1 }
  | .accept v => appendPick s s.i v

/-- One iteration of the picking loop (lines 424-724). -/
def seqBody (s : SeqState) : SeqStepRes :=
  let c := s.ctx
  let i := s.i
  let freq := c.wA.getD i 0
  let velocities := c.crossAt i
  let closest_vel := fp_closest c i
  if c.min_amp ≠ 0 ∧ c.ampLow i then
    let e := if s.pick.length > 0 then s.picking_errors + 1 else s.picking_errors
    .cont { s with i := i + 1, picking_errors := e }
  else
    let dv_cycle := fp_dv c i
    if s.pick.length = 0 then firstPickBranch s
    else if s.pick.length = 1 then
      appendPick s i closest_vel
    else
      trackStep s i freq velocities closest_vel dv_cycle

/-- The picking loop: iterate `seqBody` while `i < len(w_axis)`.  `none`
models running out of fuel; the Python loop terminates, and every statement
below is quantified over the fuel, so each terminating run is covered. -/
def seqRun : ℕ → SeqState → Option SeqState
  | 0, s => if s.i < s.ctx.wA.length then none else some s
  | fuel + 1, s =>
      if s.i < s.ctx.wA.length then
        match seqBody s with
        | .cont s' => seqRun fuel s'
        | .brk s' => some s'
      else some s

/-- The post-loop merge with the fallback (lines 727-731): substitute
`old_picks` when the running list is empty or `old_picks` spans more. -/
def mergedPick (s : SeqState) : List (ℚ × ℚ) :=
  if s.old_picks.length > 1 ∧ s.pick.length = 0 then s.old_picks
  else if s.old_picks.length > 1 ∧ s.pick.length > 1 ∧
      pickSpan s.old_picks > pickSpan s.pick then s.old_picks
  else s.pick

/-- The acceptance gate (lines 750-757): raise (`error`) when nothing was
picked, return only when the picked span exceeds 10% of the axis width with
more than 3 picks. -/
def seqFinalize (s : SeqState) : Except Unit (List (ℚ × ℚ) × List (ℚ × ℚ)) :=
  if (mergedPick s).length = 0 then .error ()
  else if pickSpan (mergedPick s) / s.ctx.width > 1/10 ∧ (mergedPick s).length > 3 then
    .ok (s.ctx.crossings, mergedPick s)
  else .error ()

/-- Initial loop state (lines 419-423). -/
def initSeq (c : SeqCtx) : SeqState :=
  { ctx := c, i := 0, pick := [], old_picks := [], picking_errors := 0,
    previous_freq := 0 }

/-- Shallow embedding of `extract_phase_velocity` (noise.py 356-757):
returns the crossing table and the accepted pick list, or an error for the
two raise sites (lines 751, 757). -/
def extract_phase_velocity (c : SeqCtx) (fuel : ℕ) :
    Except Unit (List (ℚ × ℚ) × List (ℚ × ℚ)) :=
  match seqRun fuel (initSeq c) with
  | none => .error ()
  | some s => seqFinalize s

/-! ### C6: the first-pick search criteria -/

/-- C6, amended: in the first-pick search (empty pick list) at index `i`,
(1) if `dv_cycle` over the reference curve's velocity span is below `1/3`
the search aborts (`brk`) without a first pick; (2) a first pick `v` is
accepted only when `v` is the candidate closest to the reference velocity,
within `dv_cycle/2` of it, the nearer of the second- and third-closest
candidates is at least `0.2` km/s away from it (when a second candidate
exists), the forward probe has at least 2 picks, and the probe variance
ratio is *at most* 20 (the source rejects only strictly above 20,
line 496). -/
theorem first_pick_acceptance (c : SeqCtx) (i : ℕ) :
    (fp_dv c i / c.refSpan < 1/3 → first_pick_step c i = .brk) ∧
    (∀ v, first_pick_step c i = .accept v →
      v = fp_closest c i ∧
      |v - c.rv i| ≤ fp_dv c i / 2 ∧
      (2 ≤ (c.crossAt i).length → 1/5 ≤ fp_seconds_min c i) ∧
      2 ≤ (start_picks_of c i).length ∧
      probeVarRatio c i ≤ 20) := by
  constructor
  · intro h
    unfold first_pick_step
    rw [if_pos h]
  · intro v hv
    unfold first_pick_step at hv
    split_ifs at hv with h1 h2 h3 h4 h5 <;> simp only [FPResult.accept.injEq] at hv
    subst hv
    push_neg at h2 h3 h4 h5
    exact ⟨rfl, h2, h3, h4, h5⟩

/-- The concrete context of the C6 counterexample: distance 40 km,
`pi = 3`, velocity window `(2, 6)`, spectrum `[1,-1,1,-1,1]` on frequencies
`[0.5 … 4.5]` (crossings at 1, 2, 3, 4), a reference curve interpolating
`[3.3, 2.7, 3.1, 2.9]` at those crossings with velocity span `0.6`, and a
zero table producing exactly one candidate per crossing:
`[3.3, 5.3, 5.3, 3.3]`. -/
def firstPickCtx : SeqCtx :=
  { pi := 3, δ := 40, fmin := 0, fmax := 99, minv := 2, maxv := 6, min_amp := 0,
    frequencies := [1/2, 3/2, 5/2, 7/2, 9/2], ccspec := [1, -1, 1, -1, 1],
    ref_curve := [(1/2, 33/10), (1, 33/10), (2, 27/10), (3, 31/10), (4, 29/10),
      (9/2, 29/10)],
    zeros := [800/11, 4800/53, 7200/53, 3200/11],
    ampLow := fun _ => false, slopeDiv := fun _ _ => false }

/-- C6, counterexample to the claim's "variance ratio is below 20": at
`firstPickCtx`, index 0, the probe picks are `[3.3, 5.3, 5.3, 3.3]`
(variance 1) and the reference velocities `[3.3, 2.7, 3.1, 2.9]`
(variance 1/20), so the ratio is exactly 20 — not below 20 — and the first
pick `3.3` is nevertheless accepted, because line 496 rejects only ratios
strictly greater than 20. -/
theorem first_pick_var_ratio_cex :
    first_pick_step firstPickCtx 0 = .accept (33/10) ∧
      ¬ (probeVarRatio firstPickCtx 0 < 20) := by
  constructor
  · decide
  · decide

/-- `firstPickCtx` with the reference curve's first control velocity raised
to 13, making the velocity span 10.3 so that `dv_cycle/refSpan < 1/3`. -/
def firstPickCtxDense : SeqCtx :=
  { firstPickCtx with
    ref_curve := [(1/2, 13), (1, 33/10), (2, 27/10), (3, 31/10), (4, 29/10),
      (9/2, 29/10)] }

/-- Witness for the amended C6: the density guard fires at
`firstPickCtxDense` and the variance bound holds at the accepted pick of
`firstPickCtx`. -/
theorem first_pick_acceptance_witness :
    (fp_dv firstPickCtxDense 0 / firstPickCtxDense.refSpan < 1/3 ∧
      first_pick_step firstPickCtxDense 0 = .brk) ∧
    probeVarRatio firstPickCtx 0 ≤ 20 :=
  ⟨⟨by decide, (first_pick_acceptance firstPickCtxDense 0).1 (by decide)⟩,
    ((first_pick_acceptance firstPickCtx 0).2 (33/10) (by decide)).2.2.2.2⟩

/-! ### Context preservation: no step writes to the call inputs -/

/-- State carried by a loop outcome. -/
def SeqStepRes.st : SeqStepRes → SeqState
  | .cont s => s
  | .brk s => s

lemma appendPick_st_ctx (s : SeqState) (i' : ℕ) (v : ℚ) :
    (appendPick s i' v).st.ctx = s.ctx := by
  unfold appendPick
  dsimp only
  split_ifs <;> rfl

lemma smallStepCheck_inl_ctx (s : SeqState) (freq fs dv : ℚ) (r : SeqStepRes)
    (h : smallStepCheck s freq fs dv = Sum.inl r) : r.st.ctx = s.ctx := by
  unfold smallStepCheck at h
  dsimp only at h
  split_ifs at h <;> cases h <;> rfl

lemma smallStepCheck_inr_ctx (s : SeqState) (freq fs dv : ℚ) (s1 : SeqState)
    (h : smallStepCheck s freq fs dv = Sum.inr s1) : s1.ctx = s.ctx := by
  unfold smallStepCheck at h
  dsimp only at h
  split_ifs at h <;> cases h <;> rfl

lemma slopeSection_inl_ctx (s : SeqState) (i : ℕ) (freq fs : ℚ) (r : SeqStepRes)
    (h : slopeSection s i freq fs = Sum.inl r) : r.st.ctx = s.ctx := by
  unfold slopeSection at h
  dsimp only at h
  split_ifs at h <;> cases h <;> rfl

lemma slopeSection_inr_ctx (s : SeqState) (i : ℕ) (freq fs : ℚ)
    (t : SeqState × ℚ × ℚ) (h : slopeSection s i freq fs = Sum.inr t) :
    t.1.ctx = s.ctx := by
  unfold slopeSection at h
  dsimp only at h
  split_ifs at h <;> cases h <;> rfl

lemma chooseStep_st_ctx (s : SeqState) (i : ℕ) (freq : ℚ) (velocities : List ℚ)
    (cv fs slope intercept : ℚ) :
    (chooseStep s i freq velocities cv fs slope intercept).st.ctx = s.ctx := by
  unfold chooseStep
  dsimp only
  split_ifs <;> first
    | rfl
    | exact appendPick_st_ctx _ _ _

lemma trackStep_st_ctx (s : SeqState) (i : ℕ) (freq : ℚ) (velocities : List ℚ)
    (cv dv : ℚ) : (trackStep s i freq velocities cv dv).st.ctx = s.ctx := by
  unfold trackStep
  dsimp only
  split_ifs with h1
  · rfl
  · rcases hsm : smallStepCheck s freq ((s.pick.getLastD (0, 0)).2 / (2 * s.ctx.δ)) dv
      with r | s1
    · rw [Sum.elim_inl]
      exact smallStepCheck_inl_ctx _ _ _ _ _ hsm
    · rw [Sum.elim_inr]
      rcases hsl : slopeSection s1 i freq ((s.pick.getLastD (0, 0)).2 / (2 * s.ctx.δ))
        with r | t
      · rw [Sum.elim_inl]
        exact (slopeSection_inl_ctx _ _ _ _ _ hsl).trans
          (smallStepCheck_inr_ctx _ _ _ _ _ hsm)
      · rw [Sum.elim_inr]
        exact (chooseStep_st_ctx _ _ _ _ _ _ _ _).trans
          ((slopeSection_inr_ctx _ _ _ _ _ hsl).trans
            (smallStepCheck_inr_ctx _ _ _ _ _ hsm))

lemma firstPickBranch_st_ctx (s : SeqState) : (firstPickBranch s).st.ctx = s.ctx := by
  unfold firstPickBranch
  rcases hf : first_pick_step s.ctx s.i with _ | _ | _ | v
  · rfl
  · rfl
  · dsimp only
    split_ifs <;> rfl
  · exact appendPick_st_ctx _ _ _

lemma seqBody_st_ctx (s : SeqState) : (seqBody s).st.ctx = s.ctx := by
  unfold seqBody
  dsimp only
  split_ifs with h1 h2 h3 h4
  · rfl
  · rfl
  · exact firstPickBranch_st_ctx s
  · exact appendPick_st_ctx _ _ _
  · exact trackStep_st_ctx _ _ _ _ _ _

/-- The loop never writes to the call context: the input arrays a run
started from are the input arrays it ends with. -/
lemma seqRun_ctx : ∀ (fuel : ℕ) (s s' : SeqState),
    seqRun fuel s = some s' → s'.ctx = s.ctx := by
  intro fuel
  induction fuel with
  | zero =>
      intro s s' h
      rw [seqRun] at h
      split_ifs at h
      have hs : s = s' := by simpa using h
      exact congrArg SeqState.ctx hs.symm
  | succ n ih =>
      intro s s' h
      rw [seqRun] at h
      split_ifs at h with hi
      · rcases hb : seqBody s with s1 | s1 <;> rw [hb] at h
        · have h1 : s1.ctx = s.ctx := by
            have hctx := seqBody_st_ctx s
            rw [hb] at hctx
            exact hctx
          exact (ih s1 s' h).trans h1
        · have hctx := seqBody_st_ctx s
          rw [hb] at hctx
          have hs : s1 = s' := by
            have := h
            simp only [Option.some.injEq] at this
            exact this
          rw [← hs]
          exact hctx
      · have hs : s = s' := by simpa using h
        exact congrArg SeqState.ctx hs.symm

/-! ### C1: the acceptance gate of the sequential picker -/

lemma foldl_min_le (a : ℚ) (l : List ℚ) : l.foldl min a ≤ a := by
  induction l generalizing a with
  | nil => simp
  | cons x t ih => exact le_trans (ih (min a x)) (min_le_left a x)

lemma le_foldl_max (a : ℚ) (l : List ℚ) : a ≤ l.foldl max a := by
  induction l generalizing a with
  | nil => simp
  | cons x t ih => exact le_trans (le_max_left a x) (ih (max a x))

lemma listMin_le_listMax (l : List ℚ) : listMin l ≤ listMax l :=
  le_trans (foldl_min_le _ _) (le_foldl_max _ _)

/-- C1: every `ok` result of `extract_phase_velocity` carries at least 4
picks whose frequency span exceeds 10% of the restricted frequency-axis
width; all other paths raise. -/
theorem extract_phase_velocity_gate (c : SeqCtx) (fuel : ℕ)
    (cr p : List (ℚ × ℚ)) (h : extract_phase_velocity c fuel = .ok (cr, p)) :
    4 ≤ p.length ∧ (1/10) * c.width < pickSpan p := by
  unfold extract_phase_velocity at h
  rcases hr : seqRun fuel (initSeq c) with _ | s
  · rw [hr] at h
    exact absurd h (by simp)
  · rw [hr] at h
    dsimp only at h
    unfold seqFinalize at h
    by_cases h1 : (mergedPick s).length = 0
    · rw [if_pos h1] at h
      exact absurd h (by simp)
    · rw [if_neg h1] at h
      by_cases h2 : pickSpan (mergedPick s) / s.ctx.width > 1/10 ∧
          (mergedPick s).length > 3
      · rw [if_pos h2] at h
        have hinj := h
        rw [Except.ok.injEq, Prod.mk.injEq] at hinj
        have hp : p = mergedPick s := hinj.2.symm
        rw [← hp] at h2
        obtain ⟨hspan, hlen⟩ := h2
        refine ⟨by omega, ?_⟩
        have hw0 : 0 ≤ s.ctx.width := by
          have := listMin_le_listMax s.ctx.wA
          unfold SeqCtx.width SeqCtx.wmax SeqCtx.wmin
          linarith
        have hcs : s.ctx = c := seqRun_ctx fuel (initSeq c) s hr
        rcases eq_or_lt_of_le hw0 with hw | hw
        · rw [hcs] at hw
          rw [hcs, ← hw, div_zero] at hspan
          norm_num at hspan
        · rw [hcs] at hw
          rw [hcs] at hspan
          calc (1/10) * c.width < pickSpan p / c.width * c.width := by
                apply mul_lt_mul_of_pos_right _ hw
                exact hspan
            _ = pickSpan p := div_mul_cancel₀ _ (ne_of_gt hw)
      · rw [if_neg h2] at h
        exact absurd h (by simp)

/-- The context of a successful sequential-picker run: a synthetic
spectrum alternating in sign on frequencies `1 … 6` (crossings at
`1.5 … 5.5`), distance 1 km, `pi = 3`, a gently sloping reference curve
around 3 km/s, and a zero table giving each crossing a candidate at
exactly 3 km/s. -/
def seqWitnessCtx : SeqCtx :=
  { pi := 3, δ := 1, fmin := 0, fmax := 99, minv := 1, maxv := 5, min_amp := 0,
    frequencies := [1, 2, 3, 4, 5, 6], ccspec := [1, -1, 1, -1, 1, -1],
    ref_curve := [(1/2, 16/5), (10, 3)], zeros := [3, 5, 7, 9, 11],
    ampLow := fun _ => false, slopeDiv := fun _ _ => false }

set_option maxRecDepth 100000 in
/-- Witness for C1: the gate conclusion at the concrete successful run,
which returns the five picks `(1.5,3) … (5.5,3)`. -/
theorem extract_phase_velocity_gate_witness :
    4 ≤ ([((3:ℚ)/2, (3:ℚ)), (5/2, 3), (7/2, 3), (9/2, 3), (11/2, 3)] :
        List (ℚ × ℚ)).length ∧
      (1/10) * seqWitnessCtx.width <
        pickSpan [((3:ℚ)/2, (3:ℚ)), (5/2, 3), (7/2, 3), (9/2, 3), (11/2, 3)] :=
  extract_phase_velocity_gate seqWitnessCtx 20 seqWitnessCtx.crossings
    [((3:ℚ)/2, (3:ℚ)), (5/2, 3), (7/2, 3), (9/2, 3), (11/2, 3)] (by rfl)

/-! ### C7 (sequential part): pick frequencies are strictly increasing -/

lemma np_unique_pairwise (l : List ℚ) : List.Pairwise (· < ·) (np_unique l) := by
  have hs : List.Sorted (· ≤ ·) (l.insertionSort (· ≤ ·)) :=
    List.sorted_insertionSort (· ≤ ·) l
  have hd : List.Pairwise (· ≤ ·) (np_unique l) :=
    List.Pairwise.sublist (List.dedup_sublist _) hs
  have hn : (np_unique l).Nodup := List.nodup_dedup _
  exact (hd.and hn).imp (fun h => lt_of_le_of_ne h.1 h.2)

/-- The crossing-frequency axis is strictly ascending. -/
lemma wA_pairwise (c : SeqCtx) : List.Pairwise (· < ·) c.wA :=
  List.Pairwise.sublist (List.filter_sublist _) (np_unique_pairwise _)

lemma pairwise_getD_lt (l : List ℚ) (h : List.Pairwise (· < ·) l) (k m : ℕ)
    (hk : k < m) (hm : m < l.length) : l.getD k 0 < l.getD m 0 := by
  have hk' : k < l.length := lt_trans hk hm
  rw [l.getD_eq_getElem 0 hk', l.getD_eq_getElem 0 hm]
  exact List.pairwise_iff_get.mp h ⟨k, hk'⟩ ⟨m, hm⟩ hk

lemma idxMinQAux_lt (l : List ℚ) : ∀ (i best : ℕ) (bv : ℚ) (B : ℕ),
    best < B → i + l.length ≤ B → idxMinQAux l i best bv < B := by
  induction l with
  | nil => intro i best bv B hb _; simpa [idxMinQAux] using hb
  | cons a r ih =>
      intro i best bv B hb hiB
      rw [idxMinQAux]
      simp only [List.length_cons] at hiB
      split_ifs
      · exact ih (i + 1) i a B (by omega) (by omega)
      · exact ih (i + 1) best bv B hb (by omega)

lemma idxMinQ_lt_length (l : List ℚ) (h : l ≠ []) : idxMinQ l < l.length := by
  cases l with
  | nil => exact absurd rfl h
  | cons a r =>
      rw [idxMinQ]
      exact idxMinQAux_lt r 1 0 a (a :: r).length (by simp) (by simp; omega)

/-- Every entry of `best_next_crossings` corresponds to an axis index
`i + j + m < len(w_axis)`, and the two accumulated lists have equal
length. -/
lemma bncBuild_bound (c : SeqCtx) (i : ℕ) (pick : List (ℚ × ℚ))
    (slope intercept prev fs : ℚ) : ∀ (fuel j : ℕ),
    (∀ m, m < (bncBuild c i pick slope intercept prev fs j fuel).1.length →
      i + j + m < c.wA.length) ∧
    (bncBuild c i pick slope intercept prev fs j fuel).1.length =
      (bncBuild c i pick slope intercept prev fs j fuel).2.length := by
  intro fuel
  induction fuel with
  | zero => intro j; constructor
            · intro m hm; simp [bncBuild] at hm
            · simp [bncBuild]
  | succ n ih =>
      intro j
      rw [bncBuild]
      split_ifs with hc
      · constructor
        · intro m hm
          cases m with
          | zero => omega
          | succ m' =>
              have := (ih (j + 1)).1 m' (by
                simp only [List.length_cons] at hm
                omega)
              omega
        · simp only [List.length_cons]
          rw [(ih (j + 1)).2]
      · exact ⟨fun m hm => by simp at hm, by simp⟩

/-- The loop invariant on the pick lists: strictly increasing frequencies,
and a nonempty running list ends at an axis frequency strictly below the
cursor. -/
def pickInv (c : SeqCtx) (pick : List (ℚ × ℚ)) (i : ℕ) : Prop :=
  List.Chain' (· < ·) (pick.map Prod.fst) ∧
  (pick ≠ [] → ∃ k, k < i ∧ k < c.wA.length ∧ (pick.getLastD (0, 0)).1 = c.wA.getD k 0)

def stateInv (s : SeqState) : Prop :=
  pickInv s.ctx s.pick s.i ∧ List.Chain' (· < ·) (s.old_picks.map Prod.fst)

lemma pickInv_nil (c : SeqCtx) (i : ℕ) : pickInv c [] i :=
  ⟨List.chain'_nil, fun h => absurd rfl h⟩

lemma pickInv_mono (c : SeqCtx) (pick : List (ℚ × ℚ)) (i i' : ℕ) (h : i ≤ i')
    (hp : pickInv c pick i) : pickInv c pick i' := by
  refine ⟨hp.1, fun hne => ?_⟩
  obtain ⟨k, hk, hkl, he⟩ := hp.2 hne
  exact ⟨k, by omega, hkl, he⟩

lemma getLast?_map_fst (pick : List (ℚ × ℚ)) (h : pick ≠ []) :
    (pick.map Prod.fst).getLast? = some (pick.getLastD (0, 0)).1 := by
  rw [List.getLast?_map, List.getLastD_eq_getLast?]
  cases hl : pick.getLast? with
  | none => exact absurd (List.getLast?_eq_none_iff.mp hl) h
  | some a => rfl

/-- Appending a pick at axis index `i' < len`, with the running list's last
frequency strictly below `w_axis[i']`, preserves the invariant. -/
lemma appendPick_inv (s : SeqState) (i' : ℕ) (v : ℚ)
    (hinv : stateInv s) (hi : s.i ≤ i') (hlen : i' < s.ctx.wA.length) :
    stateInv (appendPick s i' v).st := by
  have hwa := wA_pairwise s.ctx
  have hchain : List.Chain' (· < ·)
      ((s.pick ++ [(s.ctx.wA.getD i' 0, v)]).map Prod.fst) := by
    rw [List.map_append]
    apply List.chain'_append.mpr
    refine ⟨hinv.1.1, List.chain'_singleton _, ?_⟩
    intro x hx y hy
    rcases eq_or_ne s.pick [] with hnil | hne
    · rw [hnil] at hx
      simp at hx
    · rw [getLast?_map_fst s.pick hne] at hx
      simp only [List.map_cons, List.map_nil, List.head?_cons, Option.mem_def,
        Option.some.injEq] at hx hy
      obtain ⟨k, hk, hkl, he⟩ := hinv.1.2 hne
      rw [← hx, ← hy, he]
      exact pairwise_getD_lt _ hwa k i' (by omega) hlen
  have hlast : ((s.pick ++ [(s.ctx.wA.getD i' 0, v)]).getLastD (0, 0)).1 =
      s.ctx.wA.getD i' 0 := by
    rw [List.getLastD_eq_getLast?, List.getLast?_concat]
    rfl
  unfold appendPick
  dsimp only
  split_ifs with hb
  · exact ⟨pickInv_nil _ _, hinv.2⟩
  · exact ⟨⟨hchain, fun _ => ⟨i', Nat.lt_succ_self i', hlen, hlast⟩⟩, hinv.2⟩

lemma smallStepCheck_inl_inv (s : SeqState) (freq fs dv : ℚ) (r : SeqStepRes)
    (h : smallStepCheck s freq fs dv = Sum.inl r) (hinv : stateInv s) :
    stateInv r.st := by
  unfold smallStepCheck at h
  dsimp only at h
  split_ifs at h <;> cases h <;>
    first
      | exact hinv
      | exact ⟨pickInv_nil _ _, hinv.1.1⟩
      | exact ⟨pickInv_nil _ _, hinv.2⟩

lemma smallStepCheck_inr_eq (s : SeqState) (freq fs dv : ℚ) (s1 : SeqState)
    (h : smallStepCheck s freq fs dv = Sum.inr s1) :
    s1.pick = s.pick ∧ s1.old_picks = s.old_picks ∧ s1.i = s.i := by
  unfold smallStepCheck at h
  dsimp only at h
  split_ifs at h <;> cases h <;> exact ⟨rfl, rfl, rfl⟩

lemma slopeSection_inl_inv (s : SeqState) (i : ℕ) (freq fs : ℚ) (r : SeqStepRes)
    (h : slopeSection s i freq fs = Sum.inl r) (hinv : stateInv s) :
    stateInv r.st := by
  unfold slopeSection at h
  dsimp only at h
  split_ifs at h <;> cases h <;>
    first
      | exact hinv
      | exact ⟨pickInv_nil _ _, hinv.1.1⟩
      | exact ⟨pickInv_nil _ _, hinv.2⟩

lemma slopeSection_inr_eq (s : SeqState) (i : ℕ) (freq fs : ℚ)
    (t : SeqState × ℚ × ℚ) (h : slopeSection s i freq fs = Sum.inr t) :
    t.1 = s := by
  unfold slopeSection at h
  dsimp only at h
  split_ifs at h <;> cases h <;> rfl

/-- The argmin over the candidate distances never points past the end of
the frequency axis. -/
lemma bnc_idx_bound (c : SeqCtx) (i : ℕ) (pick : List (ℚ × ℚ))
    (slope intercept prev fs : ℚ) (hlen : i < c.wA.length) :
    i + idxMinQ ((((bncBuild c i pick slope intercept prev fs 0 (c.wA.length + 1)).1.zip
        (bncBuild c i pick slope intercept prev fs 0 (c.wA.length + 1)).2).map
      (fun q => |q.1.2 - q.2|))) < c.wA.length := by
  have hb := bncBuild_bound c i pick slope intercept prev fs (c.wA.length + 1) 0
  generalize hg : bncBuild c i pick slope intercept prev fs 0 (c.wA.length + 1) = bp at hb ⊢
  rcases eq_or_ne ((bp.1.zip bp.2).map (fun q => |q.1.2 - q.2|)) [] with hnil | hne
  · rw [hnil]
    simpa [idxMinQ] using hlen
  · have hidx := idxMinQ_lt_length _ hne
    have hzl : ((bp.1.zip bp.2).map (fun q => |q.1.2 - q.2|)).length = bp.1.length := by
      rw [List.length_map, List.length_zip, ← hb.2, Nat.min_self]
    rw [hzl] at hidx
    have hbound := hb.1 _ hidx
    omega

set_option maxHeartbeats 1600000 in
lemma chooseStep_inv (s : SeqState) (i : ℕ) (freq : ℚ) (velocities : List ℚ)
    (cv fs slope intercept : ℚ) (hinv : stateInv s) (hi : s.i ≤ i)
    (hlen : i < s.ctx.wA.length) :
    stateInv (chooseStep s i freq velocities cv fs slope intercept).st := by
  unfold chooseStep
  dsimp only
  generalize hg : bncBuild s.ctx i s.pick slope intercept s.previous_freq fs 0
    (s.ctx.wA.length + 1) = bp
  have hbnd : i + idxMinQ ((bp.1.zip bp.2).map (fun q => |q.1.2 - q.2|)) <
      s.ctx.wA.length := by
    rw [← hg]
    exact bnc_idx_bound s.ctx i s.pick slope intercept s.previous_freq fs hlen
  clear hg
  set rp : ℚ := (if freq - s.previous_freq < (4/3) * fs ∧
      freq - s.previous_freq > (2/3) * fs ∧
      |2 * s.ctx.pi * s.ctx.δ * freq *
          (1 / closestTo (s.pick.getLastD (0, 0)).2 velocities -
            1 / (s.pick.getLastD (0, 0)).2)| < (1/2) * s.ctx.pi then
    closestTo (s.pick.getLastD (0, 0)).2 velocities else 0) with hrp
  split_ifs with h1 h2 h3 h4 h5 h6 h7 h8 h9 h10
  · exact ⟨pickInv_nil _ _, hinv.1.1⟩
  · exact ⟨pickInv_nil _ _, hinv.2⟩
  · exact hinv
  · exact appendPick_inv s i _ hinv hi hlen
  · exact appendPick_inv s i _ hinv hi hlen
  · exact appendPick_inv s i _ hinv hi hlen
  · exact appendPick_inv s i _ hinv hi hlen
  · exact ⟨pickInv_nil _ _, hinv.2⟩
  · exact appendPick_inv _ _ _ hinv (Nat.le_trans hi (Nat.le_add_right i _)) hbnd
  · exact appendPick_inv _ _ _ hinv (Nat.le_trans hi (Nat.le_add_right i _)) hbnd
  · exact appendPick_inv s i _ hinv hi hlen

lemma trackStep_inv (s : SeqState) (i : ℕ) (freq : ℚ) (velocities : List ℚ)
    (cv dv : ℚ) (hinv : stateInv s) (hi : s.i ≤ i)
    (hlen : i < s.ctx.wA.length) :
    stateInv (trackStep s i freq velocities cv dv).st := by
  unfold trackStep
  dsimp only
  split_ifs with h1
  · exact ⟨pickInv_nil _ _, hinv.2⟩
  · rcases hsm : smallStepCheck s freq ((s.pick.getLastD (0, 0)).2 / (2 * s.ctx.δ)) dv
      with r | s1
    · rw [Sum.elim_inl]
      exact smallStepCheck_inl_inv _ _ _ _ _ hsm hinv
    · rw [Sum.elim_inr]
      obtain ⟨hp, ho, hiq⟩ := smallStepCheck_inr_eq _ _ _ _ _ hsm
      have hctx1 := smallStepCheck_inr_ctx _ _ _ _ _ hsm
      have hinv1 : stateInv s1 := by
        unfold stateInv pickInv
        rw [hp, ho, hiq, hctx1]
        exact hinv
      rcases hsl : slopeSection s1 i freq ((s.pick.getLastD (0, 0)).2 / (2 * s.ctx.δ))
        with r | t
      · rw [Sum.elim_inl]
        exact slopeSection_inl_inv _ _ _ _ _ hsl hinv1
      · rw [Sum.elim_inr]
        rw [slopeSection_inr_eq _ _ _ _ _ hsl]
        exact chooseStep_inv s1 i freq velocities cv _ _ _ hinv1
          (by rw [hiq]; exact hi) (by rw [hctx1]; exact hlen)

lemma firstPickBranch_inv (s : SeqState) (hinv : stateInv s)
    (hlen : s.i < s.ctx.wA.length) : stateInv (firstPickBranch s).st := by
  unfold firstPickBranch
  rcases hf : first_pick_step s.ctx s.i with _ | _ | _ | v
  · exact hinv
  · exact ⟨pickInv_mono _ _ _ _ (Nat.le_succ _) hinv.1, hinv.2⟩
  · dsimp only
    split_ifs
    · exact ⟨pickInv_mono _ _ _ _ (Nat.le_succ _) hinv.1, hinv.2⟩
    · exact ⟨pickInv_mono _ _ _ _ (Nat.le_succ _) hinv.1, hinv.2⟩
  · exact appendPick_inv s s.i v hinv le_rfl hlen

lemma seqBody_inv (s : SeqState) (hinv : stateInv s)
    (hlen : s.i < s.ctx.wA.length) : stateInv (seqBody s).st := by
  unfold seqBody
  dsimp only
  split_ifs with h1 h2 h3 h4
  · exact ⟨pickInv_mono _ _ _ _ (Nat.le_succ _) hinv.1, hinv.2⟩
  · exact ⟨pickInv_mono _ _ _ _ (Nat.le_succ _) hinv.1, hinv.2⟩
  · exact firstPickBranch_inv s hinv hlen
  · exact appendPick_inv s s.i _ hinv le_rfl hlen
  · exact trackStep_inv s s.i _ _ _ _ hinv le_rfl hlen

/-- The loop invariant holds at every state a run can stop in. -/
lemma seqRun_inv : ∀ (fuel : ℕ) (s s' : SeqState), stateInv s →
    seqRun fuel s = some s' → stateInv s' := by
  intro fuel
  induction fuel with
  | zero =>
      intro s s' hinv h
      rw [seqRun] at h
      split_ifs at h
      have hs : s = s' := by simpa using h
      exact hs ▸ hinv
  | succ n ih =>
      intro s s' hinv h
      rw [seqRun] at h
      split_ifs at h with hi
      · rcases hb : seqBody s with s1 | s1 <;> rw [hb] at h
        · have h1 : stateInv s1 := by
            have := seqBody_inv s hinv hi
            rwa [hb] at this
          exact ih s1 s' h1 h
        · have h1 : stateInv s1 := by
            have := seqBody_inv s hinv hi
            rwa [hb] at this
          have hs : s1 = s' := by simpa using h
          exact hs ▸ h1
      · have hs : s = s' := by simpa using h
        exact hs ▸ hinv

lemma mergedPick_chain (s : SeqState) (hinv : stateInv s) :
    List.Chain' (· < ·) ((mergedPick s).map Prod.fst) := by
  unfold mergedPick
  split_ifs
  · exact hinv.2
  · exact hinv.2
  · exact hinv.1.1

/-- The sequential picker only returns pick lists with strictly increasing
frequencies. -/
lemma seq_result_pairwise (c : SeqCtx) (fuel : ℕ) (cr p : List (ℚ × ℚ))
    (h : extract_phase_velocity c fuel = .ok (cr, p)) :
    List.Pairwise (· < ·) (p.map Prod.fst) := by
  unfold extract_phase_velocity at h
  rcases hr : seqRun fuel (initSeq c) with _ | s <;> rw [hr] at h <;> dsimp only at h
  · cases h
  · have hinv : stateInv s :=
      seqRun_inv fuel (initSeq c) s ⟨pickInv_nil _ _, List.chain'_nil⟩ hr
    unfold seqFinalize at h
    split_ifs at h
    simp only [Except.ok.injEq, Prod.mk.injEq] at h
    rw [← h.2]
    exact List.chain'_iff_pairwise.mp (mergedPick_chain s hinv)

/-! ## get_smooth_pv (noise.py lines 761-1138)

The ridge-image picker.  The smoothed cross-correlation image (`column`,
`Z`, `yaxis`, `gaussian_filter`, `argrelextrema`, lines 895-936 and the
amplitude tests) influences the run only through which local maximum is
picked at a window column and whether its amplitude passes the threshold;
those float-valued decisions are abstracted by the oracle fields of
`RidgeCtx`, and every theorem is quantified over the oracles, hence covers
the decisions of any execution.  Crash paths internal to the image
construction (empty columns, absent extrema, the `ydim` overflow) are
modelled as regular continuation: a Python run that crashes there returns
nothing, so statements about returned pick lists are unaffected.  The
error paths that are kept are the ones on the pick-building path: the
empty `w_axis` (`w_axis[-1]`, line 848), the `picks.remove` loop emptying
the list (`IndexError`, lines 965/1089), the undefined `smoothed` at line
1094 (`NameError`), the `running_mean` exceptions, and the final raise of
line 1138.  `picks.remove(picks[-1])` removes the first list element equal
to the last one; on every reachable state the picks have pairwise distinct
frequencies (proved below), so it is embedded as dropping the last
element. -/

/-- Context of one `get_smooth_pv` call: the shared spectrum inputs
(`base`, from which the crossing table and `w_axis` are derived exactly as
in the sequential picker, lines 831-845), the ridge parameters, and the
oracles for the smoothed-image decisions:

* `slopeBad col` models `|arctan(slope)-arctan(slope_ref)| > 0.8π` of
  line 883 at the iteration whose column count is `col` (only consulted
  when the regression slope is used, `len(picks) > tfs/2`; otherwise
  `slope = slope_ref` and the condition is false);
* `firstAmpOK col j` / `firstVel col j` model the amplitude gate of line
  1004 and the chosen maximum `yaxis[idxmax[idxpick]]` in the first-pick
  window (lines 988-1005);
* `followAmpOK col` / `followVel col` model lines 1039-1040;
* `endAmpOK j` / `endVel j` model lines 1069-1070. -/
structure RidgeCtx where
  base : SeqCtx
  x_overlap : ℚ
  y_overlap : ℚ
  filt_width : ℚ
  filt_height : ℚ
  pick_threshold : ℚ
  slopeBad : ℕ → Bool
  firstAmpOK : ℕ → ℕ → Bool
  firstVel : ℕ → ℕ → ℚ
  followAmpOK : ℕ → Bool
  followVel : ℕ → ℚ
  endAmpOK : ℕ → Bool
  endVel : ℕ → ℚ

/-- `three_freq_step = np.int(3/(1-x_overlap))` (line 852) as a natural
number.  For `x_overlap` outside `[0,1)` the Python value is negative or
the line raises `ZeroDivisionError`; in both cases the first-pick window
`range(int(three_freq_step/2))` is empty or the call dies, so no pick is
ever accepted and the call cannot succeed — which is also the behaviour
of the `toNat` image `0`. -/
def RidgeCtx.tfs (c : RidgeCtx) : ℕ := (pyTrunc (3 / (1 - c.x_overlap))).toNat

/-- State of the ridge picking loop.  `X0` is `X[0]`, the list of column
frequencies; `sm` records whether `smoothed` has been assigned (line 974);
`lastFs`/`lastDv` are the `freq_step`/`dv_cycle` values left behind by the
last executed iteration, used by the post-loop block. -/
structure RState where
  ctx : RidgeCtx
  freq : ℚ
  X0 : List ℚ
  sm : Bool
  picks : List (ℚ × ℚ)
  picks_backup : List (ℚ × ℚ)
  pick_to_the_end : Bool
  lastFs : ℚ
  lastDv : ℚ

/-- Outcome of one ridge loop iteration: continue, `break`, or crash. -/
inductive RStep where
  | cont : RState → RStep
  | brk : RState → RStep
  | err : RStep

/-- The cycle-jump removal loop (lines 965-968 and 1089-1092) on the
reversed pick list: drop leading (i.e. trailing) picks with frequency
above the threshold; `none` models the `IndexError` raised when the list
empties and the `while` condition indexes `picks[-1]` again. -/
def check2DropRev (thr : ℚ) : List (ℚ × ℚ) → Option (List (ℚ × ℚ))
  | [] => none
  | p :: rest => if p.1 > thr then check2DropRev thr rest else some (p :: rest)

def check2Drop (thr : ℚ) (picks : List (ℚ × ℚ)) : Option (List (ℚ × ℚ)) :=
  (check2DropRev thr picks.reverse).map List.reverse

/-- The cycle-jump check (lines 959-968 and 1083-1092): when the pick
closest in frequency to `freq - 2*freq_step` is not the first one and the
last pick jumps by more than half a cycle against it or against the
second-to-last pick, the trailing picks are removed. -/
def check2 (freq fs dv : ℚ) (picks : List (ℚ × ℚ)) : Option (List (ℚ × ℚ)) :=
  if picks ≠ [] then
    let thr := freq - 2 * fs
    let idxp := idxMinQ (picks.map (fun p => |p.1 - thr|))
    if idxp > 0 ∧ (|(picks.getLastD (0, 0)).2 - (picks.getD idxp (0, 0)).2| > (1/2) * dv ∨
        |(picks.getLastD (0, 0)).2 - (picks.getD (picks.length - 2) (0, 0)).2| > (1/2) * dv) then
      check2Drop thr picks
    else some picks
  else some picks

/-- The first-pick window loop (lines 988-1010) over `j ∈ range(tfs/2)`:
an oracle-accepted maximum is appended at the frequency of window column
`len(X0)-tfs+j` unless it sits farther than `0.2·dv_cycle` from the last
first pick, in which case the frequency cursor is bumped and the column
skipped. -/
def firstLoop (c : RidgeCtx) (X0 : List ℚ) (dv fs : ℚ) (col : ℕ) :
    ℕ → ℕ → List (ℚ × ℚ) → ℚ → List (ℚ × ℚ) × ℚ
  | _, 0, picks, freq => (picks, freq)
  | j, k + 1, picks, freq =>
      if c.firstAmpOK col j then
        if picks ≠ [] ∧ |c.firstVel col j - (picks.getLastD (0, 0)).2| > (2/10) * dv then
          firstLoop c X0 dv fs col (j + 1) k picks (freq + (1 - c.x_overlap) * fs)
        else
          firstLoop c X0 dv fs col (j + 1) k
            (picks ++ [(X0.getD (X0.length - c.tfs + j) 0, c.firstVel col j)]) freq
      else firstLoop c X0 dv fs col (j + 1) k picks freq

/-- The pick-to-the-end loop (lines 1057-1082) over
`j ∈ range(tfs/2+1, tfs)`, with its skip (`continue`, line 1072) and its
internal data-quality `break` (lines 1076-1082). -/
def endLoop (c : RidgeCtx) (X0 : List ℚ) (freq dv fs rs : ℚ) :
    ℕ → ℕ → List (ℚ × ℚ) → List (ℚ × ℚ)
  | _, 0, picks => picks
  | j, k + 1, picks =>
      if c.endAmpOK j ∧ |c.endVel j - (picks.getLastD (0, 0)).2| > (3/10) * dv then
        endLoop c X0 freq dv fs rs (j + 1) k picks
      else
        let picks1 :=
          if c.endAmpOK j then
            picks ++ [(X0.getD (X0.length - c.tfs + j) 0, c.endVel j)]
          else picks
        if freq - (picks1.getLastD (0, 0)).1 > 3 * fs ∧ dv / rs < 1/3 then picks1
        else endLoop c X0 freq dv fs rs (j + 1) k picks1

/-- The frequency-cursor advance (lines 1046-1049). -/
def advanceFreq (b : SeqCtx) (c : RidgeCtx) (freq fs : ℚ) : ℚ :=
  if freq + (1 - c.x_overlap) * fs > b.wmax then
    freq + max (b.wmax - freq) (1/1000)
  else freq + (1 - c.x_overlap) * fs

/-- The smoothing window with the first-pick block or the following-pick
block, and the cursor advance (lines 971-1049), given the state after the
checks: the new axis `X1`, the possibly swapped backup, and the iteration
quantities. -/
def ridgePickPhase (s : RState) (X1 : List ℚ) (backup1 : List (ℚ × ℚ))
    (ref_vel fs dv : ℚ) (picks2 : List (ℚ × ℚ)) : RStep :=
  let c := s.ctx
  let b := c.base
  let tfs := c.tfs
  if X1.length > tfs then
    if picks2 = [] then
      if dv / ((b.ref_curve.headD (0, 0)).2 - ref_vel) < 1/4 then
        .brk { s with X0 := X1, sm := true, picks := picks2, picks_backup := backup1, lastFs := fs, lastDv := dv }
      else
        let fp := firstLoop c X1 dv fs X1.length 0 (tfs / 2) picks2 s.freq
        let picks3 :=
          if fp.1.length < 2 then []
          else if |npMean (fp.1.map Prod.snd) - ref_vel| > dv / (8/5) then []
          else if (fp.1.getLastD (0, 0)).2 - (fp.1.headD (0, 0)).2 > 0 then []
          else fp.1
        .cont { s with X0 := X1, sm := true, picks := picks3, picks_backup := backup1, lastFs := fs, lastDv := dv, freq := advanceFreq b c fp.2 fs }
    else
      if c.followAmpOK X1.length then
        if |c.followVel X1.length - (picks2.getLastD (0, 0)).2| > (3/10) * dv then
          .cont { s with X0 := X1, sm := true, picks := picks2, picks_backup := backup1, lastFs := fs, lastDv := dv, freq := s.freq + (1 - c.x_overlap) * fs }
        else
          .cont { s with X0 := X1, sm := true, picks := picks2 ++ [(X1.getD (X1.length - tfs + tfs / 2) 0, c.followVel X1.length)], picks_backup := backup1, lastFs := fs, lastDv := dv, freq := advanceFreq b c s.freq fs }
      else
        .cont { s with X0 := X1, sm := true, picks := picks2, picks_backup := backup1, lastFs := fs, lastDv := dv, freq := advanceFreq b c s.freq fs }
  else
    .cont { s with X0 := X1, picks := picks2, picks_backup := backup1, lastFs := fs, lastDv := dv, freq := advanceFreq b c s.freq fs }

/-- Check 1 (restart or break, lines 940-956), check 2 (cycle-jump
removal, possibly crashing, lines 959-968) and the picking phase, given
the pick list left by the slope-consistency removal. -/
def ridgeChecks (s : RState) (picks0 : List (ℚ × ℚ)) (ref_vel fs dv : ℚ) : RStep :=
  let b := s.ctx.base
  let X1 := s.X0 ++ [s.freq]
  if picks0 ≠ [] ∧ s.freq - (picks0.getLastD (0, 0)).1 > 3 * fs ∧
      dv / b.refSpan < 1/3 then
    .brk { s with X0 := X1, picks := picks0, pick_to_the_end := false, lastFs := fs, lastDv := dv }
  else
    let restart := picks0 ≠ [] ∧ s.freq - (picks0.getLastD (0, 0)).1 > 3 * fs
    let backup1 := if restart ∧ s.picks_backup.length < picks0.length then picks0
      else s.picks_backup
    let picks1 := if restart then [] else picks0
    match check2 s.freq fs dv picks1 with
    | none => .err
    | some picks2 => ridgePickPhase s X1 backup1 ref_vel fs dv picks2

/-- One iteration of the ridge picking loop (lines 862-1049), in source
order: the slope-consistency removal, the column/axis append, check 1
(restart or break), check 2 (cycle-jump removal, possibly crashing), the
smoothing window with the first-pick or following-pick block, and the
cursor advance. -/
def ridgeBody (s : RState) : RStep :=
  let c := s.ctx
  let b := c.base
  let tfs := c.tfs
  let ref_vel := interp_lin b.ref_curve s.freq
  let fs := ref_vel / (2 * b.δ)
  let dv := dv_cycle_at b.δ s.freq ref_vel
  let picks0 := if s.picks.length > tfs / 2 ∧ c.slopeBad s.X0.length then
      s.picks.take (s.picks.length - (tfs / 4 + 1))
    else s.picks
  ridgeChecks s picks0 ref_vel fs dv

/-- The ridge picking loop (line 862): iterate while `freq ≤ max(w_axis)`.
`none` models running out of fuel (the Python loop may not terminate, and
every statement below is quantified over the fuel, so each terminating run
is covered); `some (.error ())` a crash inside the loop; `some (.ok s)` a
normal exit (guard failure or `break`). -/
def ridgeRun : ℕ → RState → Option (Except Unit RState)
  | 0, s => if s.freq ≤ s.ctx.base.wmax then none else some (.ok s)
  | fuel + 1, s =>
      if s.freq ≤ s.ctx.base.wmax then
        match ridgeBody s with
        | .cont s' => ridgeRun fuel s'
        | .brk s' => some (.ok s')
        | .err => some (.error ())
      else some (.ok s)

/-- The pick-to-the-end block (lines 1056-1092): the end-of-window picks
followed by the final cycle-jump check; `none` is its `IndexError`. -/
def ridgeEndPicks (s : RState) : Option (List (ℚ × ℚ)) :=
  let c := s.ctx
  let tfs := c.tfs
  if s.picks ≠ [] ∧ s.pick_to_the_end then
    check2 s.freq s.lastFs s.lastDv
      (endLoop c s.X0 s.freq s.lastDv s.lastFs c.base.refSpan (tfs / 2 + 1)
        (tfs - (tfs / 2 + 1)) s.picks)
  else some s.picks

/-- Lines 1094-1138 given the post-loop pick list: the `smoothed` access
of line 1094 (`NameError` when the smoothing window never filled), the
backup comparison, the smoothing by `running_mean`, and the final gate. -/
def ridgeGate (s : RState) (picks1 : List (ℚ × ℚ)) :
    Except Unit (List (ℚ × ℚ) × List (ℚ × ℚ)) :=
  let c := s.ctx
  let picks2 := if s.picks_backup.length > picks1.length then s.picks_backup
    else picks1
  if s.sm = false then .error ()
  else if picks2.length > c.tfs then
    match running_mean (picks2.map Prod.snd) (pyTrunc (c.x_overlap * 10) + 1).toNat with
    | none => .error ()
    | some smooth =>
        if smooth ≠ [] ∧ pickSpan picks2 / c.base.width > 15/100 then
          .ok (c.base.crossings, (picks2.map Prod.fst).zip smooth)
        else .error ()
  else .error ()

/-- The post-loop phase (lines 1056-1138). -/
def ridgeFinalize (s : RState) : Except Unit (List (ℚ × ℚ) × List (ℚ × ℚ)) :=
  match ridgeEndPicks s with
  | none => .error ()
  | some picks1 => ridgeGate s picks1

/-- Initial ridge loop state (lines 853-861). -/
def initR (c : RidgeCtx) : RState :=
  { ctx := c, freq := c.base.wmin, X0 := [], sm := false, picks := [],
    picks_backup := [], pick_to_the_end := true, lastFs := 0, lastDv := 0 }

/-- Shallow embedding of `get_smooth_pv` (noise.py 761-1138): the crossing
table and the accepted (frequency, smoothed velocity) rows, or an error
for every raise/crash path. -/
def get_smooth_pv (c : RidgeCtx) (fuel : ℕ) :
    Except Unit (List (ℚ × ℚ) × List (ℚ × ℚ)) :=
  if c.base.wA = [] then .error ()
  else
    match ridgeRun fuel (initR c) with
    | none => .error ()
    | some (.error ()) => .error ()
    | some (.ok s) => ridgeFinalize s

/-! ### Ridge context preservation -/

/-- State carried by a non-crashing loop outcome. -/
def RStep.st : RStep → Option RState
  | .cont s => some s
  | .brk s => some s
  | .err => none

lemma ridgePickPhase_st_ctx (s : RState) (X1 : List ℚ)
    (backup1 : List (ℚ × ℚ)) (ref_vel fs dv : ℚ) (picks2 : List (ℚ × ℚ))
    (r : RState) (h : (ridgePickPhase s X1 backup1 ref_vel fs dv picks2).st = some r) :
    r.ctx = s.ctx := by
  unfold ridgePickPhase at h
  dsimp only at h
  split_ifs at h <;> cases h <;> rfl

lemma ridgeChecks_st_ctx (s : RState) (picks0 : List (ℚ × ℚ))
    (ref_vel fs dv : ℚ) (r : RState)
    (h : (ridgeChecks s picks0 ref_vel fs dv).st = some r) : r.ctx = s.ctx := by
  unfold ridgeChecks at h
  dsimp only at h
  split_ifs at h <;>
    first
      | (cases h; rfl)
      | (split at h
         · cases h
         · exact ridgePickPhase_st_ctx _ _ _ _ _ _ _ _ h)

lemma ridgeBody_st_ctx (s r : RState) (h : (ridgeBody s).st = some r) :
    r.ctx = s.ctx := by
  unfold ridgeBody at h
  dsimp only at h
  exact ridgeChecks_st_ctx _ _ _ _ _ _ h

lemma ridgeBody_cont_ctx (s r : RState) (h : ridgeBody s = .cont r) :
    r.ctx = s.ctx :=
  ridgeBody_st_ctx s r (by rw [h]; rfl)

lemma ridgeBody_brk_ctx (s r : RState) (h : ridgeBody s = .brk r) :
    r.ctx = s.ctx :=
  ridgeBody_st_ctx s r (by rw [h]; rfl)

/-- The ridge loop never writes to the call context. -/
lemma ridgeRun_ok_ctx : ∀ (fuel : ℕ) (s s' : RState),
    ridgeRun fuel s = some (.ok s') → s'.ctx = s.ctx := by
  intro fuel
  induction fuel with
  | zero =>
      intro s s' h
      rw [ridgeRun] at h
      split_ifs at h
      have hs : s = s' := by simpa using h
      exact congrArg RState.ctx hs.symm
  | succ n ih =>
      intro s s' h
      rw [ridgeRun] at h
      split_ifs at h with hi
      · rcases hb : ridgeBody s with s1 | s1 | _ <;> rw [hb] at h <;> dsimp only at h
        · exact (ih s1 s' h).trans (ridgeBody_cont_ctx s s1 hb)
        · have hs : s1 = s' := by simpa using h
          exact hs ▸ ridgeBody_brk_ctx s s1 hb
        · simp at h
      · have hs : s = s' := by simpa using h
        exact congrArg RState.ctx hs.symm

/-! ### C5: the acceptance gate of the ridge picker -/

lemma rmBoundary_length (x : List ℚ) : ∀ (rm : List ℚ) (i k : ℕ),
    (rmBoundary x rm i k).length = rm.length := by
  intro rm i k
  induction k generalizing rm i with
  | zero => rfl
  | succ n ih =>
      rw [rmBoundary, ih]
      simp

/-- `running_mean` preserves the length of its input. -/
lemma running_mean_length (x : List ℚ) (N0 : ℕ) (y : List ℚ)
    (h : running_mean x N0 = some y) : y.length = x.length := by
  unfold running_mean at h
  dsimp only at h
  split_ifs at h <;> (cases h; rw [rmBoundary_length]; simp)

/-- `three_freq_step ≥ 3` whenever `0 ≤ x_overlap < 1`. -/
lemma RidgeCtx.tfs_ge (c : RidgeCtx) (hx0 : 0 ≤ c.x_overlap)
    (hx1 : c.x_overlap < 1) : 3 ≤ c.tfs := by
  unfold RidgeCtx.tfs
  have h1 : (0:ℚ) < 1 - c.x_overlap := by linarith
  have h3 : (3:ℚ) ≤ 3 / (1 - c.x_overlap) := by
    rw [le_div_iff h1]
    nlinarith
  unfold pyTrunc
  rw [if_pos (by linarith : (0:ℚ) ≤ 3 / (1 - c.x_overlap))]
  have hf : (3:ℤ) ≤ ⌊3 / (1 - c.x_overlap)⌋ := by
    rw [Int.le_floor]
    exact_mod_cast h3
  omega

lemma map_fst_headD (l : List (ℚ × ℚ)) :
    (l.map Prod.fst).headD 0 = (l.headD (0, 0)).1 := by
  cases l <;> rfl

lemma map_fst_getLastD (l : List (ℚ × ℚ)) :
    (l.map Prod.fst).getLastD 0 = (l.getLastD (0, 0)).1 := by
  rw [List.getLastD_eq_getLast?, List.getLastD_eq_getLast?, List.getLast?_map]
  cases l.getLast? <;> rfl

lemma pickSpan_eq_map_fst (l : List (ℚ × ℚ)) :
    pickSpan l = (l.map Prod.fst).getLastD 0 - (l.map Prod.fst).headD 0 := by
  rw [map_fst_getLastD, map_fst_headD]
  rfl

/-- The span of the returned (frequency, smoothed velocity) rows is the
span of the underlying picks. -/
lemma pickSpan_zip (picks : List (ℚ × ℚ)) (smooth : List ℚ)
    (h : picks.length ≤ smooth.length) :
    pickSpan ((picks.map Prod.fst).zip smooth) = pickSpan picks := by
  rw [pickSpan_eq_map_fst ((picks.map Prod.fst).zip smooth),
    List.map_fst_zip _ _ (by simpa using h), ← pickSpan_eq_map_fst]

/-- C5: every `ok` result of `get_smooth_pv` carries at least 4 picks
whose frequency span exceeds 15% of the restricted frequency-axis width;
all other paths raise. -/
theorem get_smooth_pv_gate (c : RidgeCtx) (fuel : ℕ) (cr p : List (ℚ × ℚ))
    (hx0 : 0 ≤ c.x_overlap) (hx1 : c.x_overlap < 1)
    (h : get_smooth_pv c fuel = .ok (cr, p)) :
    4 ≤ p.length ∧ (15/100) * c.base.width < pickSpan p := by
  have htfs := c.tfs_ge hx0 hx1
  unfold get_smooth_pv at h
  split_ifs at h
  rcases hr : ridgeRun fuel (initR c) with _ | e <;> rw [hr] at h
  · cases h
  · rcases e with ⟨⟩ | s <;> dsimp only at h
    · cases h
    · have hctx : s.ctx = c := ridgeRun_ok_ctx fuel (initR c) s hr
      unfold ridgeFinalize at h
      rcases hE : ridgeEndPicks s with _ | picks1 <;> rw [hE] at h <;> dsimp only at h
      · cases h
      · unfold ridgeGate at h
        dsimp only at h
        rw [hctx] at h
        split_ifs at h with h1 h2 h4 h5
        all_goals
          split at h
          · cases h
          · rename_i smooth hm
            split_ifs at h with h3
            simp only [Except.ok.injEq, Prod.mk.injEq] at h
            have hlen := running_mean_length _ _ _ hm
            rw [List.length_map] at hlen
            refine ⟨?_, ?_⟩
            · rw [← h.2, List.length_zip, List.length_map, hlen]
              omega
            · rw [← h.2, pickSpan_zip _ _ (le_of_eq hlen.symm)]
              have hw0 : 0 ≤ c.base.width :=
                sub_nonneg.mpr (listMin_le_listMax c.base.wA)
              rcases eq_or_lt_of_le hw0 with hw | hw
              · exfalso
                have h32 := h3.2
                rw [← hw, div_zero] at h32
                norm_num at h32
              · exact (lt_div_iff hw).mp h3.2

/-- The spectrum inputs of a successful ridge run: sign-alternating
spectrum on `0.5 … 7.5` (crossings at `1 … 7`), distance 1 km, `pi = 3`,
a reference curve settling at 2 km/s, and a zero table giving every
crossing at least one candidate inside `(1, 5)`. -/
def ridgeWitnessBase : SeqCtx where
  pi := 3
  δ := 1
  fmin := 0
  fmax := 99
  minv := 1
  maxv := 5
  min_amp := 0
  frequencies := [1/2, 3/2, 5/2, 7/2, 9/2, 11/2, 13/2, 15/2]
  ccspec := [1, -1, 1, -1, 1, -1, 1, -1]
  ref_curve := [(1/2, 33/10), (3/4, 2), (100, 2)]
  zeros := [2, 3, 9, 10, 43, 44]
  ampLow := fun _ => false
  slopeDiv := fun _ _ => false

/-- A ridge context on which `get_smooth_pv` succeeds: `x_overlap = 1/4`
(`three_freq_step = 4`), with oracles accepting a constant 2 km/s ridge.
The run takes nine columns at `1, 1.75, …, 7`, keeps two first picks and
four following picks, smooths them with window 3 and passes the gate. -/
def ridgeWitnessCtx : RidgeCtx where
  base := ridgeWitnessBase
  x_overlap := 1/4
  y_overlap := 0
  filt_width := 5
  filt_height := 1/5
  pick_threshold := 17/10
  slopeBad := fun _ => false
  firstAmpOK := fun _ _ => true
  firstVel := fun _ _ => 2
  followAmpOK := fun _ => true
  followVel := fun _ => 2
  endAmpOK := fun _ => false
  endVel := fun _ => 0

set_option maxRecDepth 400000 in
/-- Witness for C5: the gate conclusion at the concrete successful ridge
run, which returns the six rows `(1.75,2) … (6.25,2)`. -/
theorem get_smooth_pv_gate_witness :
    4 ≤ ([((7:ℚ)/4, (2:ℚ)), (5/2, 2), (4, 2), (19/4, 2), (11/2, 2),
        (25/4, 2)] : List (ℚ × ℚ)).length ∧
      (15/100) * ridgeWitnessCtx.base.width <
        pickSpan [((7:ℚ)/4, (2:ℚ)), (5/2, 2), (4, 2), (19/4, 2), (11/2, 2), (25/4, 2)] :=
  get_smooth_pv_gate ridgeWitnessCtx 12 ridgeWitnessCtx.base.crossings
    [((7:ℚ)/4, (2:ℚ)), (5/2, 2), (4, 2), (19/4, 2), (11/2, 2), (25/4, 2)]
    (by decide) (by decide) (by rfl)

/-! ### C7 (ridge part): order-theoretic helpers -/

lemma getLastD_mem {α : Type} : ∀ (l : List α) (d : α), l ≠ [] → l.getLastD d ∈ l
  | [], _, h => absurd rfl h
  | [a], d, _ => by simp [List.getLastD]
  | a :: b :: t, d, _ => by
      rw [List.getLastD_cons]
      exact List.mem_cons_of_mem a (getLastD_mem (b :: t) a (by simp))

lemma getLastD_congr {α : Type} (l : List α) (d d' : α) (h : l ≠ []) :
    l.getLastD d = l.getLastD d' := by
  rw [List.getLastD_eq_getLast?, List.getLastD_eq_getLast?]
  cases hl : l.getLast? with
  | none => exact absurd (List.getLast?_eq_none_iff.mp hl) h
  | some a => rfl

lemma pairwise_le_getLastD {α : Type} [LinearOrder α] :
    ∀ (l : List α) (d : α), List.Pairwise (· < ·) l → ∀ x ∈ l, x ≤ l.getLastD d
  | [], _, _, x, hx => absurd hx (by simp)
  | a :: t, d, h, x, hx => by
      rw [List.getLastD_cons]
      rcases List.mem_cons.mp hx with rfl | hxt
      · cases t with
        | nil => simp [List.getLastD]
        | cons b t' =>
            exact le_of_lt
              (List.rel_of_pairwise_cons h (getLastD_mem (b :: t') x (by simp)))
      · exact pairwise_le_getLastD t a (List.Pairwise.of_cons h) x hxt

lemma chain'_head_le {α : Type} [LinearOrder α] (l : List α) (d : α)
    (h : List.Chain' (· < ·) l) : ∀ x ∈ l, l.headD d ≤ x := by
  cases l with
  | nil => intro x hx; cases hx
  | cons a t =>
      intro x hx
      rcases List.mem_cons.mp hx with rfl | hxt
      · exact le_refl _
      · exact le_of_lt (List.rel_of_pairwise_cons (List.chain'_iff_pairwise.mp h) hxt)

lemma le_foldl_min (a : ℚ) :
    ∀ (l : List ℚ) (b : ℚ), (∀ x ∈ l, a ≤ x) → a ≤ b → a ≤ l.foldl min b
  | [], _, _, hb => hb
  | x :: t, b, ha, hb => by
      rw [List.foldl_cons]
      exact le_foldl_min a t (min b x) (fun y hy => ha y (List.mem_cons_of_mem x hy))
        (le_min hb (ha x (List.mem_cons_self x t)))

lemma foldl_max_le (a : ℚ) :
    ∀ (l : List ℚ) (b : ℚ), (∀ x ∈ l, x ≤ a) → b ≤ a → l.foldl max b ≤ a
  | [], _, _, hb => hb
  | x :: t, b, ha, hb => by
      rw [List.foldl_cons]
      exact foldl_max_le a t (max b x) (fun y hy => ha y (List.mem_cons_of_mem x hy))
        (max_le hb (ha x (List.mem_cons_self x t)))

/-- On a strictly ascending list the minimum is the head. -/
lemma sorted_listMin (l : List ℚ) (h : List.Chain' (· < ·) l) :
    listMin l = l.headD 0 :=
  le_antisymm (foldl_min_le _ _)
    (le_foldl_min _ _ _ (chain'_head_le l 0 h) (le_refl _))

lemma mem_le_foldl_max :
    ∀ (l : List ℚ) (b : ℚ), ∀ x ∈ l, x ≤ l.foldl max b
  | [], _, x, hx => absurd hx (by simp)
  | a :: t, b, x, hx => by
      rw [List.foldl_cons]
      rcases List.mem_cons.mp hx with rfl | hxt
      · exact le_trans (le_max_right b x) (le_foldl_max (max b x) t)
      · exact mem_le_foldl_max t (max b a) x hxt

/-- On a strictly ascending list the maximum is the last element. -/
lemma sorted_listMax (l : List ℚ) (h : List.Chain' (· < ·) l) :
    listMax l = l.getLastD 0 := by
  refine le_antisymm ?_ ?_
  · refine foldl_max_le _ _ _
      (pairwise_le_getLastD l 0 (List.chain'_iff_pairwise.mp h)) ?_
    cases l with
    | nil => simp [List.getLastD]
    | cons a t =>
        exact pairwise_le_getLastD _ 0 (List.chain'_iff_pairwise.mp h) a
          (List.mem_cons_self a t)
  · cases hl : l with
    | nil => simp [listMax, List.getLastD]
    | cons a t =>
        rw [← hl]
        exact mem_le_foldl_max l _ _ (getLastD_mem l 0 (by rw [hl]; simp))

lemma foldl_min_mem : ∀ (l : List ℚ) (b : ℚ), l.foldl min b ∈ b :: l
  | [], b => by simp
  | a :: t, b => by
      rw [List.foldl_cons]
      rcases List.mem_cons.mp (foldl_min_mem t (min b a)) with he | ht
      · rw [he]
        rcases min_choice b a with h | h <;> rw [h]
        · simp
        · simp
      · simp [ht]

lemma foldl_max_mem : ∀ (l : List ℚ) (b : ℚ), l.foldl max b ∈ b :: l
  | [], b => by simp
  | a :: t, b => by
      rw [List.foldl_cons]
      rcases List.mem_cons.mp (foldl_max_mem t (max b a)) with he | ht
      · rw [he]
        rcases max_choice b a with h | h <;> rw [h]
        · simp
        · simp
      · simp [ht]

lemma listMin_mem (l : List ℚ) (h : l ≠ []) : listMin l ∈ l := by
  cases l with
  | nil => exact absurd rfl h
  | cons a t =>
      unfold listMin
      rcases List.mem_cons.mp (foldl_min_mem (a :: t) (List.headD (a :: t) 0)) with he | ht
      · rw [he]
        simp
      · exact ht

lemma listMax_mem (l : List ℚ) (h : l ≠ []) : listMax l ∈ l := by
  cases l with
  | nil => exact absurd rfl h
  | cons a t =>
      unfold listMax
      rcases List.mem_cons.mp (foldl_max_mem (a :: t) (List.headD (a :: t) 0)) with he | ht
      · rw [he]
        simp
      · exact ht

/-- Linear interpolation between knots with positive values stays
positive on the knot domain. -/
lemma interp_lin_pos : ∀ (rc : List (ℚ × ℚ)) (x : ℚ),
    List.Chain' (· < ·) (rc.map Prod.fst) → (∀ q ∈ rc, 0 < q.2) →
    rc ≠ [] → (rc.headD (0, 0)).1 ≤ x → x ≤ (rc.getLastD (0, 0)).1 →
    0 < interp_lin rc x
  | [], _, _, _, hne, _, _ => absurd rfl hne
  | [p0], x, _, hpos, _, _, _ => by
      rw [interp_lin]
      exact hpos p0 (by simp)
  | p0 :: p1 :: rest, x, hch, hpos, _, hlo, hhi => by
      rw [interp_lin]
      have hch' : List.Chain' (· < ·) (p0.1 :: p1.1 :: rest.map Prod.fst) := by
        simpa using hch
      have h01 : p0.1 < p1.1 := (List.chain'_cons.mp hch').1
      have hlast : (p0 :: p1 :: rest).getLastD (0, 0) = (p1 :: rest).getLastD (0, 0) := by
        rw [List.getLastD_cons]
        exact getLastD_congr (p1 :: rest) p0 (0, 0) (by simp)
      split_ifs with h
      · have hx1 : x ≤ p1.1 := by
          rcases h with h | h
          · exact h
          · subst h
            simpa [List.getLastD_cons, List.getLastD] using hhi
        have h0 : 0 < p0.2 := hpos p0 (by simp)
        have h1 : 0 < p1.2 := hpos p1 (by simp)
        have hd : 0 < p1.1 - p0.1 := by linarith
        have hlo' : p0.1 ≤ x := by simpa using hlo
        have key : 0 < p0.2 * (p1.1 - x) + p1.2 * (x - p0.1) := by
          rcases lt_or_eq_of_le hx1 with hlt | heq
          · nlinarith
          · nlinarith
        have h2 : p0.2 + (p1.2 - p0.2) * (x - p0.1) / (p1.1 - p0.1)
            = (p0.2 * (p1.1 - x) + p1.2 * (x - p0.1)) / (p1.1 - p0.1) := by
          field_simp
          ring
        rw [h2]
        exact div_pos key hd
      · push_neg at h
        refine interp_lin_pos (p1 :: rest) x ?_
          (fun q hq => hpos q (List.mem_cons_of_mem p0 hq)) (by simp) ?_ ?_
        · simpa using (List.chain'_cons.mp hch').2
        · exact le_of_lt h.1
        · rw [← hlast]
          exact hhi

/-- Hypotheses on a ridge context under which the frequency cursor is
strictly increasing: positive distance, overlap within `[0,1)`, and a
reference curve with strictly ascending frequencies and positive
velocities. -/
def goodCtx (c : RidgeCtx) : Prop :=
  0 < c.base.δ ∧ 0 ≤ c.x_overlap ∧ c.x_overlap < 1 ∧
  List.Chain' (· < ·) (c.base.ref_curve.map Prod.fst) ∧
  (∀ q ∈ c.base.ref_curve, 0 < q.2)

/-- Every `w_axis` entry lies strictly inside the reference domain. -/
lemma wA_mem_bounds (b : SeqCtx) (w : ℚ) (hw : w ∈ b.wA) :
    listMin (b.ref_curve.map Prod.fst) < w ∧ w < listMax (b.ref_curve.map Prod.fst) := by
  rw [SeqCtx.wA] at hw
  have := (List.mem_filter.mp hw).2
  exact of_decide_eq_true this

/-- Inside the restricted axis range, `ref_vel = interp1d(ref_curve)(x)`
and hence `freq_step = ref_vel/(2δ)` are positive. -/
lemma ridge_fs_pos (c : RidgeCtx) (hg : goodCtx c) (hwa : c.base.wA ≠ [])
    (x : ℚ) (hlo : c.base.wmin ≤ x) (hhi : x ≤ c.base.wmax) :
    0 < interp_lin c.base.ref_curve x / (2 * c.base.δ) := by
  obtain ⟨hδ, -, -, hch, hpos⟩ := hg
  obtain ⟨hmin1, -⟩ := wA_mem_bounds c.base _ (listMin_mem c.base.wA hwa)
  obtain ⟨-, hmax2⟩ := wA_mem_bounds c.base _ (listMax_mem c.base.wA hwa)
  have hne : c.base.ref_curve ≠ [] := by
    intro hnil
    rw [hnil] at hmin1 hmax2
    simp only [List.map_nil] at hmin1 hmax2
    have h1 : listMin ([] : List ℚ) = 0 := rfl
    have h2 : listMax ([] : List ℚ) = 0 := rfl
    rw [h1] at hmin1
    rw [h2] at hmax2
    have := listMin_le_listMax c.base.wA
    change 0 < c.base.wmin at hmin1
    change c.base.wmax < 0 at hmax2
    have : c.base.wmin ≤ c.base.wmax := listMin_le_listMax c.base.wA
    linarith
  have hinterp : 0 < interp_lin c.base.ref_curve x := by
    apply interp_lin_pos c.base.ref_curve x hch hpos hne
    · rw [← map_fst_headD, ← sorted_listMin _ hch]
      calc listMin (c.base.ref_curve.map Prod.fst) ≤ c.base.wmin := le_of_lt hmin1
        _ ≤ x := hlo
    · rw [← map_fst_getLastD, ← sorted_listMax _ hch]
      calc x ≤ c.base.wmax := hhi
        _ ≤ listMax (c.base.ref_curve.map Prod.fst) := le_of_lt hmax2
  exact div_pos hinterp (by linarith)

/-- The pick-list bookkeeping invariant: the pick frequencies are exactly
the axis entries at a strictly ascending index list whose last entry is
below the bound `B`. -/
def rpicksOK (X0 : List ℚ) (picks : List (ℚ × ℚ)) (B : ℕ) : Prop :=
  ∃ ks : List ℕ, List.Chain' (· < ·) ks ∧
    picks.map Prod.fst = ks.map (fun k => X0.getD k 0) ∧
    (∀ k ∈ ks, k < X0.length) ∧
    (ks ≠ [] → ks.getLastD 0 < B)

lemma rpicksOK_nil (X0 : List ℚ) (B : ℕ) : rpicksOK X0 [] B :=
  ⟨[], List.chain'_nil, rfl, fun k hk => absurd hk (by simp), fun h => absurd rfl h⟩

lemma rpicksOK_mono (X0 : List ℚ) (picks : List (ℚ × ℚ)) (B B' : ℕ)
    (h : rpicksOK X0 picks B) (hB : B ≤ B') : rpicksOK X0 picks B' := by
  obtain ⟨ks, h1, h2, h3, h4⟩ := h
  exact ⟨ks, h1, h2, h3, fun hne => lt_of_lt_of_le (h4 hne) hB⟩

/-- Extending the axis preserves the bookkeeping. -/
lemma rpicksOK_extend (X0 : List ℚ) (w : ℚ) (picks : List (ℚ × ℚ)) (B : ℕ)
    (h : rpicksOK X0 picks B) : rpicksOK (X0 ++ [w]) picks B := by
  obtain ⟨ks, h1, h2, h3, h4⟩ := h
  refine ⟨ks, h1, ?_, ?_, h4⟩
  · rw [h2]
    apply List.map_congr_left
    intro k hk
    exact (List.getD_append _ _ _ _ (h3 k hk)).symm
  · intro k hk
    rw [List.length_append]
    exact lt_of_lt_of_le (h3 k hk) (by simp)

/-- Truncation (restart, slope removal, cycle-jump removal) preserves the
bookkeeping. -/
lemma rpicksOK_take (X0 : List ℚ) (picks : List (ℚ × ℚ)) (B n : ℕ)
    (h : rpicksOK X0 picks B) : rpicksOK X0 (picks.take n) B := by
  obtain ⟨ks, h1, h2, h3, h4⟩ := h
  have h1' := List.chain'_iff_pairwise.mp h1
  refine ⟨ks.take n, ?_, ?_, ?_, ?_⟩
  · exact List.chain'_iff_pairwise.mpr
      (List.Pairwise.sublist (List.take_sublist n ks) h1')
  · rw [List.map_take, h2, List.map_take]
  · intro k hk
    exact h3 k (List.take_subset n ks hk)
  · intro hne
    have hksne : ks ≠ [] := by
      intro hnil
      rw [hnil] at hne
      simp at hne
    apply lt_of_le_of_lt _ (h4 hksne)
    exact pairwise_le_getLastD ks 0 h1' _
      (List.take_subset n ks (getLastD_mem (ks.take n) 0 hne))

/-- Appending a pick at an axis index at or beyond the bound. -/
lemma rpicksOK_append (X0 : List ℚ) (picks : List (ℚ × ℚ)) (B idx : ℕ) (v : ℚ)
    (h : rpicksOK X0 picks B) (hB : B ≤ idx) (hidx : idx < X0.length) :
    rpicksOK X0 (picks ++ [(X0.getD idx 0, v)]) (idx + 1) := by
  obtain ⟨ks, h1, h2, h3, h4⟩ := h
  refine ⟨ks ++ [idx], ?_, ?_, ?_, ?_⟩
  · apply List.chain'_append.mpr
    refine ⟨h1, List.chain'_singleton _, ?_⟩
    intro a ha b hb
    simp only [List.head?_cons, Option.mem_def, Option.some.injEq] at hb
    subst hb
    have hksne : ks ≠ [] := by
      intro hnil
      rw [hnil] at ha
      simp at ha
    have hlast : ks.getLastD 0 = a := by
      rw [List.getLastD_eq_getLast?]
      cases hl : ks.getLast? with
      | none => exact absurd (List.getLast?_eq_none_iff.mp hl) hksne
      | some z =>
          rw [hl] at ha
          simp only [Option.mem_def, Option.some.injEq] at ha
          rw [ha]
          rfl
    calc a = ks.getLastD 0 := hlast.symm
      _ < B := h4 hksne
      _ ≤ idx := hB
  · rw [List.map_append, h2, List.map_append]
    rfl
  · intro k hk
    rcases List.mem_append.mp hk with hk | hk
    · exact h3 k hk
    · simp only [List.mem_singleton] at hk
      rw [hk]
      exact hidx
  · intro _
    rw [List.getLastD_concat]
    omega

/-- On a strictly ascending axis, the bookkeeping yields strictly
ascending pick frequencies. -/
lemma rpicksOK_pairwise (X0 : List ℚ) (picks : List (ℚ × ℚ)) (B : ℕ)
    (hch : List.Chain' (· < ·) X0) (h : rpicksOK X0 picks B) :
    List.Pairwise (· < ·) (picks.map Prod.fst) := by
  obtain ⟨ks, h1, h2, h3, -⟩ := h
  rw [h2, List.pairwise_map]
  have hX := List.chain'_iff_pairwise.mp hch
  exact (List.chain'_iff_pairwise.mp h1).imp_of_mem
    (fun ha hb hab => pairwise_getD_lt X0 hX _ _ hab (h3 _ hb))

lemma check2DropRev_drop (thr : ℚ) : ∀ (l out : List (ℚ × ℚ)),
    check2DropRev thr l = some out → ∃ n, out = l.drop n
  | [], out, h => by cases h
  | p :: rest, out, h => by
      rw [check2DropRev] at h
      split_ifs at h with hc
      · obtain ⟨n, hn⟩ := check2DropRev_drop thr rest out h
        exact ⟨n + 1, by simpa using hn⟩
      · cases h
        exact ⟨0, rfl⟩

lemma reverse_drop_reverse (l : List (ℚ × ℚ)) (n : ℕ) :
    (l.reverse.drop n).reverse = l.take (l.length - n) := by
  rcases le_or_lt n l.length with hn | hn
  · apply List.reverse_injective
    rw [List.reverse_reverse, List.reverse_take]
    congr 1
    omega
  · rw [List.drop_eq_nil_of_le (by simpa using le_of_lt hn)]
    rw [Nat.sub_eq_zero_of_le (le_of_lt hn)]
    rfl

/-- The cycle-jump removal returns an initial segment of the pick list. -/
lemma check2Drop_take (thr : ℚ) (l out : List (ℚ × ℚ))
    (h : check2Drop thr l = some out) : ∃ n, out = l.take n := by
  unfold check2Drop at h
  rcases hrev : check2DropRev thr l.reverse with _ | r <;> rw [hrev] at h
  · cases h
  · obtain ⟨n, hn⟩ := check2DropRev_drop thr l.reverse r hrev
    simp only [Option.map_some', Option.some.injEq] at h
    refine ⟨l.length - n, ?_⟩
    rw [← h, hn, reverse_drop_reverse]

/-- Check 2 returns an initial segment of the pick list. -/
lemma check2_take (freq fs dv : ℚ) (picks out : List (ℚ × ℚ))
    (h : check2 freq fs dv picks = some out) : ∃ n, out = picks.take n := by
  unfold check2 at h
  dsimp only at h
  split_ifs at h
  · exact check2Drop_take _ _ _ h
  · cases h
    exact ⟨picks.length, (List.take_length picks).symm⟩
  · cases h
    exact ⟨picks.length, (List.take_length picks).symm⟩

/-- The first-pick window loop preserves the bookkeeping: it appends at
the strictly ascending window indices `len(X1)-tfs+j`. -/
lemma firstLoop_rpicksOK (c : RidgeCtx) (X1 : List ℚ) (dv fs : ℚ) (col : ℕ)
    (htfs : c.tfs < X1.length) :
    ∀ (k j : ℕ) (picks : List (ℚ × ℚ)) (freq : ℚ),
    j + k ≤ c.tfs / 2 →
    rpicksOK X1 picks (X1.length - c.tfs + j) →
    rpicksOK X1 (firstLoop c X1 dv fs col j k picks freq).1
      (X1.length - c.tfs + (j + k)) := by
  intro k
  induction k with
  | zero =>
      intro j picks freq hj hp
      rw [firstLoop]
      simpa using hp
  | succ n ih =>
      intro j picks freq hj hp
      rw [firstLoop]
      split_ifs with h1 h2
      · have hres := ih (j + 1) picks (freq + (1 - c.x_overlap) * fs) (by omega)
          (rpicksOK_mono _ _ _ _ hp (by omega))
        have heq : X1.length - c.tfs + ((j + 1) + n) = X1.length - c.tfs + (j + (n + 1)) := by
          omega
        rw [← heq]
        exact hres
      · have happ := rpicksOK_append X1 picks (X1.length - c.tfs + j)
          (X1.length - c.tfs + j) (c.firstVel col j) hp (le_refl _) (by omega)
        have hres := ih (j + 1) _ freq (by omega)
          (rpicksOK_mono _ _ _ _ happ (by omega))
        have heq : X1.length - c.tfs + ((j + 1) + n) = X1.length - c.tfs + (j + (n + 1)) := by
          omega
        rw [← heq]
        exact hres
      · have hres := ih (j + 1) picks freq (by omega)
          (rpicksOK_mono _ _ _ _ hp (by omega))
        have heq : X1.length - c.tfs + ((j + 1) + n) = X1.length - c.tfs + (j + (n + 1)) := by
          omega
        rw [← heq]
        exact hres

/-- The first-pick window loop never moves the cursor backwards. -/
lemma firstLoop_freq_ge (c : RidgeCtx) (X1 : List ℚ) (dv fs : ℚ) (col : ℕ)
    (hstep : 0 ≤ (1 - c.x_overlap) * fs) :
    ∀ (k j : ℕ) (picks : List (ℚ × ℚ)) (freq : ℚ),
    freq ≤ (firstLoop c X1 dv fs col j k picks freq).2 := by
  intro k
  induction k with
  | zero =>
      intro j picks freq
      rw [firstLoop]
  | succ n ih =>
      intro j picks freq
      rw [firstLoop]
      split_ifs with h1 h2
      · calc freq ≤ freq + (1 - c.x_overlap) * fs := by linarith
          _ ≤ _ := ih (j + 1) picks _
      · exact ih (j + 1) _ freq
      · exact ih (j + 1) picks freq

/-- The first-pick window loop adds at most one pick per window column. -/
lemma firstLoop_length (c : RidgeCtx) (X1 : List ℚ) (dv fs : ℚ) (col : ℕ) :
    ∀ (k j : ℕ) (picks : List (ℚ × ℚ)) (freq : ℚ),
    (firstLoop c X1 dv fs col j k picks freq).1.length ≤ picks.length + k := by
  intro k
  induction k with
  | zero =>
      intro j picks freq
      rw [firstLoop]
      simp
  | succ n ih =>
      intro j picks freq
      rw [firstLoop]
      split_ifs with h1 h2
      · exact le_trans (ih (j + 1) picks _) (by omega)
      · refine le_trans (ih (j + 1) _ freq) ?_
        simp only [List.length_append, List.length_cons, List.length_nil]
        omega
      · exact le_trans (ih (j + 1) picks freq) (by omega)

/-- The pick-to-the-end loop preserves the bookkeeping. -/
lemma endLoop_rpicksOK (c : RidgeCtx) (X0 : List ℚ) (freq dv fs rs : ℚ)
    (htfs : c.tfs < X0.length) :
    ∀ (k j : ℕ) (picks : List (ℚ × ℚ)),
    j + k ≤ c.tfs →
    rpicksOK X0 picks (X0.length - c.tfs + j) →
    ∃ B, rpicksOK X0 (endLoop c X0 freq dv fs rs j k picks) B := by
  intro k
  induction k with
  | zero =>
      intro j picks hj hp
      rw [endLoop]
      exact ⟨_, hp⟩
  | succ n ih =>
      intro j picks hj hp
      rw [endLoop]
      dsimp only
      split_ifs with h1 h2 h3 h4
      · exact ih (j + 1) picks (by omega) (rpicksOK_mono _ _ _ _ hp (by omega))
      · exact ⟨_, rpicksOK_append X0 picks (X0.length - c.tfs + j)
          (X0.length - c.tfs + j) (c.endVel j) hp (le_refl _) (by omega)⟩
      · exact ih (j + 1) _ (by omega)
          (rpicksOK_mono _ _ _ _ (rpicksOK_append X0 picks (X0.length - c.tfs + j)
            (X0.length - c.tfs + j) (c.endVel j) hp (le_refl _) (by omega)) (by omega))
      · exact ⟨_, hp⟩
      · exact ih (j + 1) picks (by omega) (rpicksOK_mono _ _ _ _ hp (by omega))

/-- Appending a strictly larger element keeps a list strictly
ascending. -/
lemma chain'_append_singleton (l : List ℚ) (a : ℚ) (h : List.Chain' (· < ·) l)
    (hl : l ≠ [] → l.getLastD 0 < a) : List.Chain' (· < ·) (l ++ [a]) := by
  apply List.chain'_append.mpr
  refine ⟨h, List.chain'_singleton _, ?_⟩
  intro x hx y hy
  simp only [List.head?_cons, Option.mem_def, Option.some.injEq] at hy
  subst hy
  have hlne : l ≠ [] := by
    intro hnil
    rw [hnil] at hx
    simp at hx
  have hxl : l.getLastD 0 = x := by
    rw [List.getLastD_eq_getLast?]
    cases hlast : l.getLast? with
    | none => exact absurd (List.getLast?_eq_none_iff.mp hlast) hlne
    | some z =>
        rw [hlast] at hx
        simp only [Option.mem_def, Option.some.injEq] at hx
        rw [hx]
        rfl
  rw [← hxl]
  exact hl hlne

/-- The part of the ridge loop invariant needed at loop exit: axis
strictly ascending, pick bookkeeping with the sharp bound, backup
frequencies strictly ascending, and size facts for nonempty picks. -/
def rInvCore (s : RState) : Prop :=
  List.Chain' (· < ·) s.X0 ∧
  rpicksOK s.X0 s.picks (s.X0.length + 1 - (s.ctx.tfs - s.ctx.tfs / 2)) ∧
  List.Pairwise (· < ·) (s.picks_backup.map Prod.fst) ∧
  (s.picks ≠ [] → 4 ≤ s.ctx.tfs ∧ s.ctx.tfs < s.X0.length)

/-- The full in-loop invariant: additionally the cursor sits strictly
beyond the last appended column and at or beyond the axis start. -/
def rInvLoop (s : RState) : Prop :=
  rInvCore s ∧ (s.X0 ≠ [] → s.X0.getLastD 0 < s.freq) ∧ s.ctx.base.wmin ≤ s.freq

lemma rInvCore_mk (ctx : RidgeCtx) (F : ℚ) (X1 : List ℚ) (sm : Bool)
    (picks backup : List (ℚ × ℚ)) (ptte : Bool) (lastFs lastDv : ℚ)
    (hch : List.Chain' (· < ·) X1)
    (hp : rpicksOK X1 picks (X1.length + 1 - (ctx.tfs - ctx.tfs / 2)))
    (hbk : List.Pairwise (· < ·) (backup.map Prod.fst))
    (hcl : picks ≠ [] → 4 ≤ ctx.tfs ∧ ctx.tfs < X1.length) :
    rInvCore ⟨ctx, F, X1, sm, picks, backup, ptte, lastFs, lastDv⟩ :=
  ⟨hch, hp, hbk, hcl⟩

lemma rInvLoop_mk (ctx : RidgeCtx) (F : ℚ) (X1 : List ℚ) (sm : Bool)
    (picks backup : List (ℚ × ℚ)) (ptte : Bool) (lastFs lastDv : ℚ)
    (hch : List.Chain' (· < ·) X1)
    (hp : rpicksOK X1 picks (X1.length + 1 - (ctx.tfs - ctx.tfs / 2)))
    (hbk : List.Pairwise (· < ·) (backup.map Prod.fst))
    (hcl : picks ≠ [] → 4 ≤ ctx.tfs ∧ ctx.tfs < X1.length)
    (hlast : X1 ≠ [] → X1.getLastD 0 < F) (hwmin : ctx.base.wmin ≤ F) :
    rInvLoop ⟨ctx, F, X1, sm, picks, backup, ptte, lastFs, lastDv⟩ :=
  ⟨⟨hch, hp, hbk, hcl⟩, hlast, hwmin⟩

lemma advanceFreq_gt (b : SeqCtx) (c : RidgeCtx) (f fs : ℚ)
    (hstep : 0 < (1 - c.x_overlap) * fs) : f < advanceFreq b c f fs := by
  unfold advanceFreq
  split_ifs with h
  · linarith [le_max_right (b.wmax - f) ((1:ℚ)/1000)]
  · linarith

/-- The picking phase preserves the invariant: `cont` keeps the full
in-loop invariant, `brk` the core. -/
lemma ridgePickPhase_inv (s : RState) (X1 : List ℚ) (backup1 : List (ℚ × ℚ))
    (ref_vel fs dv : ℚ) (picks2 : List (ℚ × ℚ)) (r : RState)
    (hch1 : List.Chain' (· < ·) X1)
    (hp2 : rpicksOK X1 picks2 (X1.length - (s.ctx.tfs - s.ctx.tfs / 2)))
    (hbk : List.Pairwise (· < ·) (backup1.map Prod.fst))
    (hne2 : picks2 ≠ [] → 4 ≤ s.ctx.tfs ∧ s.ctx.tfs < X1.length)
    (hX1 : X1.getLastD 0 = s.freq)
    (hstep : 0 < (1 - s.ctx.x_overlap) * fs)
    (hwmin : s.ctx.base.wmin ≤ s.freq) :
    (ridgePickPhase s X1 backup1 ref_vel fs dv picks2 = .cont r → rInvLoop r) ∧
    (ridgePickPhase s X1 backup1 ref_vel fs dv picks2 = .brk r → rInvCore r) := by
  have hpB : rpicksOK X1 picks2 (X1.length + 1 - (s.ctx.tfs - s.ctx.tfs / 2)) :=
    rpicksOK_mono _ _ _ _ hp2 (by omega)
  unfold ridgePickPhase
  dsimp only
  split_ifs with hA hB hC h3a h3b h3c hD hE
  · constructor <;> intro h <;> cases h
    exact rInvCore_mk _ _ _ _ _ _ _ _ _ hch1 hpB hbk hne2
  · constructor <;> intro h <;> cases h
    refine rInvLoop_mk _ _ _ _ _ _ _ _ _ hch1 (rpicksOK_nil _ _) hbk
      (fun hne => absurd rfl hne) ?_ ?_
    · intro _
      rw [hX1]
      exact lt_of_le_of_lt
        (firstLoop_freq_ge s.ctx X1 dv fs X1.length (le_of_lt hstep) _ _ _ _)
        (advanceFreq_gt _ _ _ _ hstep)
    · refine le_trans hwmin (le_of_lt (lt_of_le_of_lt
        (firstLoop_freq_ge s.ctx X1 dv fs X1.length (le_of_lt hstep) _ _ _ _)
        (advanceFreq_gt _ _ _ _ hstep)))
  · constructor <;> intro h <;> cases h
    refine rInvLoop_mk _ _ _ _ _ _ _ _ _ hch1 (rpicksOK_nil _ _) hbk
      (fun hne => absurd rfl hne) ?_ ?_
    · intro _
      rw [hX1]
      exact lt_of_le_of_lt
        (firstLoop_freq_ge s.ctx X1 dv fs X1.length (le_of_lt hstep) _ _ _ _)
        (advanceFreq_gt _ _ _ _ hstep)
    · refine le_trans hwmin (le_of_lt (lt_of_le_of_lt
        (firstLoop_freq_ge s.ctx X1 dv fs X1.length (le_of_lt hstep) _ _ _ _)
        (advanceFreq_gt _ _ _ _ hstep)))
  · constructor <;> intro h <;> cases h
    refine rInvLoop_mk _ _ _ _ _ _ _ _ _ hch1 (rpicksOK_nil _ _) hbk
      (fun hne => absurd rfl hne) ?_ ?_
    · intro _
      rw [hX1]
      exact lt_of_le_of_lt
        (firstLoop_freq_ge s.ctx X1 dv fs X1.length (le_of_lt hstep) _ _ _ _)
        (advanceFreq_gt _ _ _ _ hstep)
    · refine le_trans hwmin (le_of_lt (lt_of_le_of_lt
        (firstLoop_freq_ge s.ctx X1 dv fs X1.length (le_of_lt hstep) _ _ _ _)
        (advanceFreq_gt _ _ _ _ hstep)))
  · constructor <;> intro h <;> cases h
    have hplnil : rpicksOK X1 picks2 (X1.length - s.ctx.tfs + 0) := by
      rw [hB]
      exact rpicksOK_nil _ _
    have hfp := firstLoop_rpicksOK s.ctx X1 dv fs X1.length hA (s.ctx.tfs / 2) 0
      picks2 s.freq (by omega) hplnil
    have hlen := firstLoop_length s.ctx X1 dv fs X1.length (s.ctx.tfs / 2) 0
      picks2 s.freq
    have hl0 : picks2.length = 0 := by
      rw [hB]
      rfl
    refine rInvLoop_mk _ _ _ _ _ _ _ _ _ hch1
      (rpicksOK_mono _ _ _ _ hfp (by omega)) hbk ?_ ?_ ?_
    · intro _
      refine ⟨by omega, hA⟩
    · intro _
      rw [hX1]
      exact lt_of_le_of_lt
        (firstLoop_freq_ge s.ctx X1 dv fs X1.length (le_of_lt hstep) _ _ _ _)
        (advanceFreq_gt _ _ _ _ hstep)
    · refine le_trans hwmin (le_of_lt (lt_of_le_of_lt
        (firstLoop_freq_ge s.ctx X1 dv fs X1.length (le_of_lt hstep) _ _ _ _)
        (advanceFreq_gt _ _ _ _ hstep)))
  · constructor <;> intro h <;> cases h
    refine rInvLoop_mk _ _ _ _ _ _ _ _ _ hch1 hpB hbk hne2 ?_ ?_
    · intro _
      rw [hX1]
      linarith
    · linarith
  · constructor <;> intro h <;> cases h
    obtain ⟨h4, hlt⟩ := hne2 hB
    refine rInvLoop_mk _ _ _ _ _ _ _ _ _ hch1 ?_ hbk (fun _ => ⟨h4, hlt⟩) ?_ ?_
    · have happ := rpicksOK_append X1 picks2
        (X1.length - (s.ctx.tfs - s.ctx.tfs / 2))
        (X1.length - s.ctx.tfs + s.ctx.tfs / 2) (s.ctx.followVel X1.length) hp2
        (by omega) (by omega)
      exact rpicksOK_mono _ _ _ _ happ (by omega)
    · intro _
      rw [hX1]
      exact advanceFreq_gt _ _ _ _ hstep
    · exact le_trans hwmin (le_of_lt (advanceFreq_gt _ _ _ _ hstep))
  · constructor <;> intro h <;> cases h
    refine rInvLoop_mk _ _ _ _ _ _ _ _ _ hch1 hpB hbk hne2 ?_ ?_
    · intro _
      rw [hX1]
      exact advanceFreq_gt _ _ _ _ hstep
    · exact le_trans hwmin (le_of_lt (advanceFreq_gt _ _ _ _ hstep))
  · constructor <;> intro h <;> cases h
    refine rInvLoop_mk _ _ _ _ _ _ _ _ _ hch1 hpB hbk hne2 ?_ ?_
    · intro _
      rw [hX1]
      exact advanceFreq_gt _ _ _ _ hstep
    · exact le_trans hwmin (le_of_lt (advanceFreq_gt _ _ _ _ hstep))

/-- The check phase preserves the invariant. -/
lemma ridgeChecks_inv (s : RState) (picks0 : List (ℚ × ℚ)) (ref_vel fs dv : ℚ)
    (r : RState)
    (hchX : List.Chain' (· < ·) s.X0)
    (hp0 : rpicksOK s.X0 picks0 (s.X0.length + 1 - (s.ctx.tfs - s.ctx.tfs / 2)))
    (hcl0 : picks0 ≠ [] → 4 ≤ s.ctx.tfs ∧ s.ctx.tfs < s.X0.length)
    (hbk : List.Pairwise (· < ·) (s.picks_backup.map Prod.fst))
    (hlastF : s.X0 ≠ [] → s.X0.getLastD 0 < s.freq)
    (hwmin : s.ctx.base.wmin ≤ s.freq)
    (hstep : 0 < (1 - s.ctx.x_overlap) * fs) :
    (ridgeChecks s picks0 ref_vel fs dv = .cont r → rInvLoop r) ∧
    (ridgeChecks s picks0 ref_vel fs dv = .brk r → rInvCore r) := by
  have hchX1 : List.Chain' (· < ·) (s.X0 ++ [s.freq]) :=
    chain'_append_singleton s.X0 s.freq hchX hlastF
  have hX1last : (s.X0 ++ [s.freq]).getLastD 0 = s.freq := List.getLastD_concat _ _ _
  have hX1len : (s.X0 ++ [s.freq]).length = s.X0.length + 1 := by simp
  have hp1ext : rpicksOK (s.X0 ++ [s.freq]) picks0
      ((s.X0 ++ [s.freq]).length - (s.ctx.tfs - s.ctx.tfs / 2)) := by
    rw [hX1len]
    exact rpicksOK_extend _ _ _ _ hp0
  have hne1 : ∀ picks2 : List (ℚ × ℚ), (∃ n, picks2 = picks0.take n) →
      picks2 ≠ [] → 4 ≤ s.ctx.tfs ∧ s.ctx.tfs < (s.X0 ++ [s.freq]).length := by
    rintro picks2 ⟨n, rfl⟩ hne
    have h0ne : picks0 ≠ [] := by
      intro hnil
      rw [hnil] at hne
      simp at hne
    obtain ⟨h4, hlt⟩ := hcl0 h0ne
    rw [hX1len]
    exact ⟨h4, by omega⟩
  unfold ridgeChecks
  dsimp only
  split_ifs with hC1 hBK hR hR'
  · constructor <;> intro h <;> cases h
    refine rInvCore_mk _ _ _ _ _ _ _ _ _ hchX1 ?_ hbk ?_
    · rw [hX1len]
      exact rpicksOK_mono _ _ _ _ (rpicksOK_extend _ _ _ _ hp0) (by omega)
    · intro hne
      obtain ⟨h4, hlt⟩ := hcl0 hne
      rw [hX1len]
      exact ⟨h4, by omega⟩
  · split
    · constructor <;> intro h <;> cases h
    · rename_i picks2 heq
      obtain ⟨n2, hn2⟩ := check2_take _ _ _ _ _ heq
      have h2nil : picks2 = [] := by
        rw [hn2]
        simp
      subst h2nil
      exact ridgePickPhase_inv s _ _ ref_vel fs dv [] r hchX1
        (rpicksOK_nil _ _) (rpicksOK_pairwise _ _ _ hchX hp0)
        (fun hne => absurd rfl hne) hX1last hstep hwmin
  · split
    · constructor <;> intro h <;> cases h
    · rename_i picks2 heq
      obtain ⟨n2, hn2⟩ := check2_take _ _ _ _ _ heq
      have h2nil : picks2 = [] := by
        rw [hn2]
        simp
      subst h2nil
      exact ridgePickPhase_inv s _ _ ref_vel fs dv [] r hchX1
        (rpicksOK_nil _ _) hbk (fun hne => absurd rfl hne) hX1last hstep hwmin
  · exact absurd hR'.1 hBK
  · split
    · constructor <;> intro h <;> cases h
    · rename_i picks2 heq
      obtain ⟨n2, hn2⟩ := check2_take _ _ _ _ _ heq
      subst hn2
      exact ridgePickPhase_inv s _ _ ref_vel fs dv _ r hchX1
        (rpicksOK_take _ _ _ _ hp1ext) hbk
        (hne1 _ ⟨n2, rfl⟩) hX1last hstep hwmin

/-- One loop iteration preserves the invariant. -/
lemma ridgeBody_inv (s r : RState)
    (hg : goodCtx s.ctx) (hwa : s.ctx.base.wA ≠ [])
    (hinv : rInvLoop s) (hguard : s.freq ≤ s.ctx.base.wmax) :
    (ridgeBody s = .cont r → rInvLoop r) ∧ (ridgeBody s = .brk r → rInvCore r) := by
  obtain ⟨⟨hchX, hpk, hbk, hcl⟩, hlastF, hwmin⟩ := hinv
  have hfs : 0 < interp_lin s.ctx.base.ref_curve s.freq / (2 * s.ctx.base.δ) :=
    ridge_fs_pos s.ctx hg hwa s.freq hwmin hguard
  have hx1 : s.ctx.x_overlap < 1 := hg.2.2.1
  have hstep : 0 < (1 - s.ctx.x_overlap) *
      (interp_lin s.ctx.base.ref_curve s.freq / (2 * s.ctx.base.δ)) :=
    mul_pos (by linarith) hfs
  unfold ridgeBody
  dsimp only
  split_ifs with hS
  · have htake : ∀ hne : s.picks.take (s.picks.length - (s.ctx.tfs / 4 + 1)) ≠ [],
        s.picks ≠ [] := by
      intro hne hnil
      rw [hnil] at hne
      simp at hne
    exact ridgeChecks_inv s _ _ _ _ r hchX (rpicksOK_take _ _ _ _ hpk)
      (fun hne => hcl (htake hne)) hbk hlastF hwmin hstep
  · exact ridgeChecks_inv s s.picks _ _ _ r hchX hpk hcl hbk hlastF hwmin hstep

/-- The loop invariant holds at every state a ridge run exits in. -/
lemma ridgeRun_inv : ∀ (fuel : ℕ) (s s' : RState),
    goodCtx s.ctx → s.ctx.base.wA ≠ [] → rInvLoop s →
    ridgeRun fuel s = some (.ok s') → rInvCore s' := by
  intro fuel
  induction fuel with
  | zero =>
      intro s s' hg hwa hinv h
      rw [ridgeRun] at h
      split_ifs at h
      have hs : s = s' := by simpa using h
      exact hs ▸ hinv.1
  | succ n ih =>
      intro s s' hg hwa hinv h
      rw [ridgeRun] at h
      split_ifs at h with hi
      · rcases hb : ridgeBody s with s1 | s1 | _ <;> rw [hb] at h <;> dsimp only at h
        · have hctx : s1.ctx = s.ctx := ridgeBody_cont_ctx s s1 hb
          refine ih s1 s' ?_ ?_ ((ridgeBody_inv s s1 hg hwa hinv hi).1 hb) h
          · rw [hctx]
            exact hg
          · rw [hctx]
            exact hwa
        · have hs : s1 = s' := by simpa using h
          exact hs ▸ (ridgeBody_inv s s1 hg hwa hinv hi).2 hb
        · simp at h
      · have hs : s = s' := by simpa using h
        exact hs ▸ hinv.1

/-- The post-loop phase only returns rows with strictly ascending
frequencies. -/
lemma ridgeFinalize_pairwise (s : RState) (cr p : List (ℚ × ℚ))
    (hcore : rInvCore s) (h : ridgeFinalize s = .ok (cr, p)) :
    List.Pairwise (· < ·) (p.map Prod.fst) := by
  obtain ⟨hchX, hpk, hbk, hcl⟩ := hcore
  unfold ridgeFinalize at h
  rcases hE : ridgeEndPicks s with _ | picks1 <;> rw [hE] at h <;> dsimp only at h
  · cases h
  · have hp1 : List.Pairwise (· < ·) (picks1.map Prod.fst) := by
      unfold ridgeEndPicks at hE
      dsimp only at hE
      split_ifs at hE with hdo
      · obtain ⟨hne, -⟩ := hdo
        obtain ⟨h4, hlt⟩ := hcl hne
        have hstart : rpicksOK s.X0 s.picks
            (s.X0.length - s.ctx.tfs + (s.ctx.tfs / 2 + 1)) :=
          rpicksOK_mono _ _ _ _ hpk (by omega)
        obtain ⟨B, hend⟩ := endLoop_rpicksOK s.ctx s.X0 s.freq s.lastDv s.lastFs
          s.ctx.base.refSpan hlt (s.ctx.tfs - (s.ctx.tfs / 2 + 1)) (s.ctx.tfs / 2 + 1)
          s.picks (by omega) hstart
        obtain ⟨n2, hn2⟩ := check2_take _ _ _ _ _ hE
        rw [hn2]
        exact rpicksOK_pairwise _ _ _ hchX (rpicksOK_take _ _ _ _ hend)
      · cases hE
        exact rpicksOK_pairwise _ _ _ hchX hpk
    unfold ridgeGate at h
    dsimp only at h
    split_ifs at h with h1 h2 h4
    all_goals (
      split at h
      · cases h
      · rename_i smooth hm
        split_ifs at h with h3
        simp only [Except.ok.injEq, Prod.mk.injEq] at h
        have hlen := running_mean_length _ _ _ hm
        rw [List.length_map] at hlen
        rw [← h.2, List.map_fst_zip _ _ (by rw [List.length_map]; omega)]
        first
          | exact hbk
          | exact hp1)

/-- The ridge picker only returns pick lists with strictly increasing
frequencies. -/
lemma ridge_result_pairwise (c : RidgeCtx) (fuel : ℕ) (cr p : List (ℚ × ℚ))
    (hg : goodCtx c) (h : get_smooth_pv c fuel = .ok (cr, p)) :
    List.Pairwise (· < ·) (p.map Prod.fst) := by
  unfold get_smooth_pv at h
  split_ifs at h with hwa
  rcases hr : ridgeRun fuel (initR c) with _ | e <;> rw [hr] at h
  · cases h
  · rcases e with ⟨⟩ | s <;> dsimp only at h
    · cases h
    · have hinit : rInvLoop (initR c) :=
        ⟨⟨List.chain'_nil, rpicksOK_nil _ _, List.Pairwise.nil,
          fun hne => absurd rfl hne⟩, fun hne => absurd rfl hne, le_refl _⟩
      have hcore : rInvCore s := ridgeRun_inv fuel (initR c) s hg hwa hinit hr
      exact ridgeFinalize_pairwise s cr p hcore h

/-- C7: both pickers return pick lists whose frequencies are strictly
increasing, hence duplicate-free.  The sequential picker needs no side
conditions; the ridge picker is stated for well-formed inputs (positive
distance, overlap in `[0,1)`, reference curve with strictly ascending
frequencies and positive velocities), without which its cursor advance
`freq += (1-x_overlap)*freq_step` need not move forward and the Python
loop does not terminate. -/
theorem picked_frequencies_strictly_increasing
    (c : SeqCtx) (rc : RidgeCtx) (fuel rfuel : ℕ) (cr p cr2 p2 : List (ℚ × ℚ))
    (hseq : extract_phase_velocity c fuel = .ok (cr, p))
    (hδ : 0 < rc.base.δ) (hx0 : 0 ≤ rc.x_overlap) (hx1 : rc.x_overlap < 1)
    (href1 : List.Chain' (· < ·) (rc.base.ref_curve.map Prod.fst))
    (href2 : ∀ q ∈ rc.base.ref_curve, 0 < q.2)
    (hridge : get_smooth_pv rc rfuel = .ok (cr2, p2)) :
    List.Pairwise (· < ·) (p.map Prod.fst) ∧
    List.Pairwise (· < ·) (p2.map Prod.fst) :=
  ⟨seq_result_pairwise c fuel cr p hseq,
   ridge_result_pairwise rc rfuel cr2 p2 ⟨hδ, hx0, hx1, href1, href2⟩ hridge⟩

set_option maxRecDepth 400000 in
/-- Witness for C7: strict monotonicity of the frequencies at the two
concrete successful runs. -/
theorem picked_frequencies_strictly_increasing_witness :
    List.Pairwise (· < ·)
      (([((3:ℚ)/2, (3:ℚ)), (5/2, 3), (7/2, 3), (9/2, 3), (11/2, 3)] :
        List (ℚ × ℚ)).map Prod.fst) ∧
    List.Pairwise (· < ·)
      (([((7:ℚ)/4, (2:ℚ)), (5/2, 2), (4, 2), (19/4, 2), (11/2, 2), (25/4, 2)] :
        List (ℚ × ℚ)).map Prod.fst) :=
  picked_frequencies_strictly_increasing seqWitnessCtx ridgeWitnessCtx 20 12
    seqWitnessCtx.crossings
    [((3:ℚ)/2, (3:ℚ)), (5/2, 3), (7/2, 3), (9/2, 3), (11/2, 3)]
    ridgeWitnessCtx.base.crossings
    [((7:ℚ)/4, (2:ℚ)), (5/2, 2), (4, 2), (19/4, 2), (11/2, 2), (25/4, 2)]
    (by rfl) (by decide) (by decide) (by decide)
    (by
      have hrc : ridgeWitnessCtx.base.ref_curve.map Prod.fst =
          [1/2, 3/4, 100] := rfl
      rw [hrc]
      norm_num [List.chain'_cons, List.chain'_singleton])
    (by decide) (by rfl)

/-! ### C9: no routine mutates its inputs -/

/-- C9: the embedding passes every input array inside the machine state;
a full run of either picking loop (successful or not) ends with the
context — the frequency axis, the correlation spectrum, the reference
curve, the zero table — it started from, and the crossing table handed
back to the caller by either picker is exactly `get_zero_crossings` of
those unchanged inputs. -/
theorem no_input_mutation :
    (∀ (c : SeqCtx) (fuel : ℕ) (s : SeqState),
      seqRun fuel (initSeq c) = some s → s.ctx = c) ∧
    (∀ (rc : RidgeCtx) (fuel : ℕ) (s : RState),
      ridgeRun fuel (initR rc) = some (.ok s) → s.ctx = rc) ∧
    (∀ (c : SeqCtx) (fuel : ℕ) (cr p : List (ℚ × ℚ)),
      extract_phase_velocity c fuel = .ok (cr, p) →
      cr = get_zero_crossings c.pi c.δ c.fmin c.fmax c.minv c.maxv
        c.frequencies c.ccspec c.zeros) ∧
    (∀ (rc : RidgeCtx) (fuel : ℕ) (cr p : List (ℚ × ℚ)),
      get_smooth_pv rc fuel = .ok (cr, p) →
      cr = get_zero_crossings rc.base.pi rc.base.δ rc.base.fmin rc.base.fmax
        rc.base.minv rc.base.maxv rc.base.frequencies rc.base.ccspec
        rc.base.zeros) := by
  refine ⟨?_, ?_, ?_, ?_⟩
  · intro c fuel s h
    exact seqRun_ctx fuel (initSeq c) s h
  · intro rc fuel s h
    exact ridgeRun_ok_ctx fuel (initR rc) s h
  · intro c fuel cr p h
    unfold extract_phase_velocity at h
    rcases hr : seqRun fuel (initSeq c) with _ | s <;> rw [hr] at h <;> dsimp only at h
    · cases h
    · unfold seqFinalize at h
      split_ifs at h
      simp only [Except.ok.injEq, Prod.mk.injEq] at h
      rw [← h.1, seqRun_ctx fuel (initSeq c) s hr]
      rfl
  · intro rc fuel cr p h
    unfold get_smooth_pv at h
    split_ifs at h
    rcases hr : ridgeRun fuel (initR rc) with _ | e <;> rw [hr] at h
    · cases h
    · rcases e with ⟨⟩ | s <;> dsimp only at h
      · cases h
      · have hctx := ridgeRun_ok_ctx fuel (initR rc) s hr
        unfold ridgeFinalize at h
        rcases hE : ridgeEndPicks s with _ | picks1 <;> rw [hE] at h <;> dsimp only at h
        · cases h
        · unfold ridgeGate at h
          dsimp only at h
          split_ifs at h with h1 h2 h4
          all_goals (
            split at h
            · cases h
            · split_ifs at h
              simp only [Except.ok.injEq, Prod.mk.injEq] at h
              rw [← h.1, hctx]
              rfl)

set_option maxRecDepth 400000 in
/-- Witness for C9: the crossing tables returned by the two concrete
successful runs are the tables computed from the unchanged inputs. -/
theorem no_input_mutation_witness :
    seqWitnessCtx.crossings =
      get_zero_crossings seqWitnessCtx.pi seqWitnessCtx.δ seqWitnessCtx.fmin
        seqWitnessCtx.fmax seqWitnessCtx.minv seqWitnessCtx.maxv
        seqWitnessCtx.frequencies seqWitnessCtx.ccspec seqWitnessCtx.zeros ∧
    ridgeWitnessCtx.base.crossings =
      get_zero_crossings ridgeWitnessCtx.base.pi ridgeWitnessCtx.base.δ
        ridgeWitnessCtx.base.fmin ridgeWitnessCtx.base.fmax
        ridgeWitnessCtx.base.minv ridgeWitnessCtx.base.maxv
        ridgeWitnessCtx.base.frequencies ridgeWitnessCtx.base.ccspec
        ridgeWitnessCtx.base.zeros :=
  ⟨no_input_mutation.2.2.1 seqWitnessCtx 20 seqWitnessCtx.crossings
      [((3:ℚ)/2, (3:ℚ)), (5/2, 3), (7/2, 3), (9/2, 3), (11/2, 3)] (by rfl),
   no_input_mutation.2.2.2 ridgeWitnessCtx 12 ridgeWitnessCtx.base.crossings
      [((7:ℚ)/4, (2:ℚ)), (5/2, 2), (4, 2), (19/4, 2), (11/2, 2), (25/4, 2)] (by rfl)⟩

end NoiseTools
